import Mathlib

/-!
Verification of the dcheck-enterprise-runner repository.

The development shallowly embeds the Python sources:

* `redaction.py` — the three PII regexes (`_EMAIL_RE`, `_FNR_RE`, `_PHONE_RE`),
  `contains_obvious_pii`, `redact_string` and the tree walker
  `redact_report_payload`.  Python strings are modelled as `List Char`
  restricted to their ASCII behaviour (the regexes are ASCII-only patterns;
  `\d`, `\s`, `\b`, `[A-Z]` with `re.IGNORECASE` are modelled by the
  corresponding ASCII character tests).  `re.sub` is modelled by a
  left-to-right scan that, at each position, performs the leftmost
  backtracking match of the concrete pattern exactly as Python's engine does
  for these three patterns, replaces it, and resumes after the match.
* `spec.py` — `load_and_validate_spec`, `_parse_run`, `_parse_tables`
  over a model of the parsed-YAML value.
* `planner.py` — `build_plan`.
* `runner.py` — the run loop of `run_from_spec` (resume set, state events,
  per-table results, exit code), with the external engine `dc` as an
  oracle parameter and wall-clock timestamps/durations omitted (they are
  not expressible in a pure embedding and no claim depends on them).
-/

namespace DCheckRunner

/-- Python strings in the ASCII fragment. -/
abbrev Str := List Char

def strOf (s : String) : Str := s.data

/-! ### Character classes of the three regexes (ASCII behaviour)

`_EMAIL_RE = [A-Z0-9._%+-]+@[A-Z0-9.-]+\.[A-Z]{2,}` (IGNORECASE),
`_PHONE_RE = \+?\d[\d\s\-]{6,}\d`, `_FNR_RE = \b\d{11}\b`. -/

def isDigitChar (c : Char) : Bool := c.isDigit

def isAlphaChar (c : Char) : Bool := c.isAlpha

/-- `\w` for `\b` word boundaries (ASCII fragment). -/
def isWordChar (c : Char) : Bool := c.isAlphanum || c = '_'

/-- the class `[A-Z0-9._%+-]` with IGNORECASE. -/
def localChar (c : Char) : Bool :=
  c.isAlphanum || c = '.' || c = '_' || c = '%' || c = '+' || c = '-'

/-- the class `[A-Z0-9.-]` with IGNORECASE. -/
def domainChar (c : Char) : Bool := c.isAlphanum || c = '.' || c = '-'

/-- the class `[\d\s\-]`. -/
def phoneInner (c : Char) : Bool := c.isDigit || c.isWhitespace || c = '-'

/-- Length of the longest prefix whose characters all satisfy `p`
(how far a greedy `[...]*` run extends). -/
def leadingRun (p : Char → Bool) : Str → Nat
  | [] => 0
  | c :: rest => if p c then leadingRun p rest + 1 else 0

/-! ### The email matcher

At a fixed start position Python's engine takes the maximal `[A-Z0-9._%+-]+`
run (shorter alternatives still face a non-`@` class character, so no
backtracking point survives), requires `@`, takes the maximal `[A-Z0-9.-]+`
run and backtracks its length `d` downwards until `\.[A-Z]{2,}` matches at
offset `d`; `[A-Z]{2,}` is greedy with nothing after it. -/

def emailBacktrack (rest2 : Str) : Nat → Option Nat
  | 0 => none
  | n + 1 =>
    let t := leadingRun isAlphaChar (rest2.drop (n + 2))
    if rest2.getD (n + 1) '@' = '.' && decide (2 ≤ t) then some (n + 2 + t)
    else emailBacktrack rest2 n

/-- Backtracking match of `_EMAIL_RE` anchored at the head of `l`;
returns the matched length. -/
def emailMatchAt (l : Str) : Option Nat :=
  let r1 := leadingRun localChar l
  if r1 = 0 then none
  else if (l.drop r1).headD ' ' = '@' then
    let rest2 := (l.drop r1).tail
    match emailBacktrack rest2 (leadingRun domainChar rest2 - 1) with
    | some m => some (r1 + 1 + m)
    | none => none
  else none

/-! ### The phone matcher

`\+?\d[\d\s\-]{6,}\d`: after the optional `+` and the first digit the
greedy middle run backtracks from the maximal class run length `m` down to
6 until the next character is a digit; since digits are inside the class,
the final digit sits at an offset `k < m` of the run. -/

def phoneFind (rest : Str) : Nat → Option Nat
  | 0 => none
  | n + 1 =>
    if n + 1 < 6 then none
    else if isDigitChar (rest.getD (n + 1) 'x') then some (n + 1)
    else phoneFind rest n

def phoneCore : Str → Option Nat
  | [] => none
  | c :: rest =>
    if isDigitChar c then
      match phoneFind rest (leadingRun phoneInner rest - 1) with
      | some k => some (k + 2)
      | none => none
    else none

/-- Backtracking match of `_PHONE_RE` anchored at the head of `l`: the greedy
`\+?` consumes a leading `+` (retrying without it cannot succeed, as `\d`
never matches `+`). -/
def phoneMatchAt : Str → Option Nat
  | [] => none
  | c :: rest => if c = '+' then (phoneCore rest).map (· + 1) else phoneCore (c :: rest)

/-! ### The FNR matcher

`\b\d{11}\b`: the first character of a match is a digit, so the leading
boundary holds iff the previous character is absent or not a word
character; the trailing boundary holds iff the character after the 11
digits is absent or not a word character. -/

def prevBoundary : Option Char → Bool
  | none => true
  | some c => !isWordChar c

/-- Match of `_FNR_RE` anchored at the head of `l`; `prev` is the character
just before `l` in the scanned string (`none` at the very start). -/
def fnrMatchAt (prev : Option Char) (l : Str) : Option Nat :=
  if prevBoundary prev && decide (11 ≤ leadingRun isDigitChar l)
      && (match l.drop 11 with | [] => true | c :: _ => !isWordChar c) then
    some 11
  else none

/-! ### `re.search` and `re.sub`

`searchNB`/`subNB` scan with a context-free matcher (email, phone);
`searchB`/`subB` additionally thread the previous character of the
*original* string for the `\b` lookarounds of the FNR pattern (Python's
`re.sub` locates all matches in the original string before splicing the
replacements in).  The `sub` functions are written with an explicit fuel
(initially the string length, one unit per consumed character) so that they
are structurally recursive; `subNB_cons`/`subB_cons` below restore the
natural unfolding. -/

def searchNB (M : Str → Option Nat) : Str → Bool
  | [] => false
  | c :: rest => (M (c :: rest)).isSome || searchNB M rest

def searchB (M : Option Char → Str → Option Nat) : Option Char → Str → Bool
  | _, [] => false
  | prev, c :: rest => (M prev (c :: rest)).isSome || searchB M (some c) rest

def subNBGo (M : Str → Option Nat) (repl : Str) : Nat → Str → Str
  | _, [] => []
  | 0, l => l
  | fuel + 1, c :: rest =>
    match M (c :: rest) with
    | some n => repl ++ subNBGo M repl fuel (rest.drop (n - 1))
    | none => c :: subNBGo M repl fuel rest

def subNB (M : Str → Option Nat) (repl : Str) (l : Str) : Str :=
  subNBGo M repl l.length l

def subBGo (M : Option Char → Str → Option Nat) (repl : Str) :
    Nat → Option Char → Str → Str
  | _, _, [] => []
  | 0, _, l => l
  | fuel + 1, prev, c :: rest =>
    match M prev (c :: rest) with
    | some n =>
        repl ++ subBGo M repl fuel (some ((c :: rest).getD (n - 1) c)) (rest.drop (n - 1))
    | none => c :: subBGo M repl fuel (some c) rest

def subB (M : Option Char → Str → Option Nat) (repl : Str) (prev : Option Char)
    (l : Str) : Str :=
  subBGo M repl l.length prev l

/-! ### The redaction entry points (`redaction.py` lines 13–29) -/

def emailToken : Str := strOf "[REDACTED_EMAIL]"

def fnrToken : Str := strOf "[REDACTED_FNR]"

def phoneToken : Str := strOf "[REDACTED_PHONE]"

/-- `contains_obvious_pii`: true iff one of the three patterns matches
somewhere (the `if not text` guard is subsumed: no pattern matches in `[]`). -/
def contains_obvious_pii (s : Str) : Bool :=
  searchNB emailMatchAt s || searchNB phoneMatchAt s || searchB fnrMatchAt none s

/-- `redact_string`: email substitution, then FNR, then phone. -/
def redact_string (s : Str) : Str :=
  subNB phoneMatchAt phoneToken
    (subB fnrMatchAt fnrToken none (subNB emailMatchAt emailToken s))

/-! Sanity checks mirroring `tests/test_redaction.py`. -/

example : contains_obvious_pii (strOf "a@b.com") = true := by decide

example : contains_obvious_pii (strOf "01019012345") = true := by decide

example : contains_obvious_pii (strOf "+4791122334") = true := by decide

example : contains_obvious_pii (strOf "hello world") = false := by decide

example :
    redact_string (strOf "mail a@b.com fnr 01019012345 phone +4791122334") =
      strOf "mail [REDACTED_EMAIL] fnr [REDACTED_FNR] phone [REDACTED_PHONE]" := by
  decide

/-! ### `leadingRun` API -/

theorem leadingRun_le_length (p : Char → Bool) : ∀ l : Str, leadingRun p l ≤ l.length
  | [] => Nat.le_refl 0
  | c :: rest => by
    by_cases h : p c = true
    · simp [leadingRun, h, Nat.succ_le_succ (leadingRun_le_length p rest)]
    · simp [leadingRun, h]

theorem leadingRun_nil (p : Char → Bool) : leadingRun p [] = 0 := rfl

theorem leadingRun_cons (p : Char → Bool) (c : Char) (rest : Str) :
    leadingRun p (c :: rest) = if p c then leadingRun p rest + 1 else 0 := rfl

theorem leadingRun_eq_length_of_all {p : Char → Bool} :
    ∀ {l : Str}, (∀ c ∈ l, p c = true) → leadingRun p l = l.length
  | [], _ => rfl
  | c :: rest, h => by
    have hc : p c = true := h c (List.mem_cons_self c rest)
    have := leadingRun_eq_length_of_all (fun d hd => h d (List.mem_cons_of_mem c hd))
    simp [leadingRun, hc, this]

theorem all_of_leadingRun_eq_length {p : Char → Bool} :
    ∀ {l : Str}, leadingRun p l = l.length → ∀ c ∈ l, p c = true
  | [], _, c, hc => absurd hc (List.not_mem_nil c)
  | a :: rest, h, c, hc => by
    by_cases ha : p a = true
    · simp [leadingRun, ha] at h
      rcases List.mem_cons.mp hc with rfl | hc'
      · exact ha
      · exact all_of_leadingRun_eq_length h c hc'
    · simp [leadingRun, ha] at h

theorem leadingRun_append_of_all {p : Char → Bool} {u : Str}
    (h : ∀ c ∈ u, p c = true) (v : Str) :
    leadingRun p (u ++ v) = u.length + leadingRun p v := by
  induction u with
  | nil => simp [leadingRun]
  | cons a rest ih =>
    have ha : p a = true := h a (List.mem_cons_self a rest)
    have := ih (fun d hd => h d (List.mem_cons_of_mem a hd))
    simp [leadingRun, ha, this]
    omega

theorem leadingRun_append_of_lt {p : Char → Bool} {u : Str}
    (h : leadingRun p u < u.length) (v : Str) :
    leadingRun p (u ++ v) = leadingRun p u := by
  induction u with
  | nil => simp at h
  | cons a rest ih =>
    by_cases ha : p a = true
    · simp [leadingRun, ha] at h ⊢
      exact ih h
    · simp [leadingRun, ha]

theorem leadingRun_prefix_le (p : Char → Bool) (u v : Str) :
    leadingRun p u ≤ leadingRun p (u ++ v) := by
  rcases Nat.lt_or_ge (leadingRun p u) u.length with h | h
  · rw [leadingRun_append_of_lt h]
  · have heq : leadingRun p u = u.length :=
      Nat.le_antisymm (leadingRun_le_length p u) h
    rw [leadingRun_append_of_all (all_of_leadingRun_eq_length heq), heq]
    exact Nat.le_add_right _ _

/-- A run never extends past a character violating `p`: the run of
`u ++ b :: v` with `p b = false` is the run of `u` alone. -/
theorem leadingRun_append_blocker {p : Char → Bool} {b : Char}
    (hb : p b = false) (u v : Str) :
    leadingRun p (u ++ b :: v) = leadingRun p u := by
  rcases Nat.lt_or_ge (leadingRun p u) u.length with h | h
  · exact leadingRun_append_of_lt h _
  · have heq : leadingRun p u = u.length :=
      Nat.le_antisymm (leadingRun_le_length p u) h
    rw [leadingRun_append_of_all (all_of_leadingRun_eq_length heq), heq,
      leadingRun_cons, hb]
    simp

theorem pred_of_lt_leadingRun {p : Char → Bool} :
    ∀ {l : Str} {i : Nat}, i < leadingRun p l → ∀ d, p (l.getD i d) = true
  | [], i, h, d => by simp [leadingRun] at h
  | c :: rest, i, h, d => by
    by_cases hc : p c = true
    · cases i with
      | zero => simpa using hc
      | succ j =>
        simp [leadingRun, hc] at h
        rw [List.getD_cons_succ]
        exact pred_of_lt_leadingRun h d
    · simp [leadingRun, hc] at h

theorem not_pred_at_leadingRun {p : Char → Bool} :
    ∀ {l : Str}, leadingRun p l < l.length → ∀ d, p (l.getD (leadingRun p l) d) = false
  | [], h, d => by simp [leadingRun] at h
  | c :: rest, h, d => by
    by_cases hc : p c = true
    · have hrun : leadingRun p (c :: rest) = leadingRun p rest + 1 := by
        simp [leadingRun, hc]
      rw [hrun] at h ⊢
      rw [List.getD_cons_succ]
      exact not_pred_at_leadingRun (by simpa using h) d
    · have hrun : leadingRun p (c :: rest) = 0 := by simp [leadingRun, hc]
      rw [hrun, List.getD_cons_zero]
      exact Bool.eq_false_iff.mpr hc

/-! ### Unfolding equations of `subNB` / `subB` -/

theorem subNBGo_irrel (M : Str → Option Nat) (repl : Str) :
    ∀ (fuel fuel' : Nat) (l : Str), l.length ≤ fuel → l.length ≤ fuel' →
      subNBGo M repl fuel l = subNBGo M repl fuel' l := by
  intro fuel
  induction fuel with
  | zero =>
    intro fuel' l hl _
    have : l = [] := List.length_eq_zero.mp (Nat.le_zero.mp hl)
    subst this
    cases fuel' <;> rfl
  | succ f ih =>
    intro fuel' l hl hl'
    cases l with
    | nil => cases fuel' <;> rfl
    | cons c rest =>
      cases fuel' with
      | zero => simp at hl'
      | succ f' =>
        cases hM : M (c :: rest) with
        | some n =>
          have hlen : (rest.drop (n - 1)).length ≤ rest.length := by
            simp [List.length_drop]
          simp only [List.length_cons] at hl hl'
          simp only [subNBGo, hM]
          rw [ih f' (rest.drop (n - 1)) (le_trans hlen (Nat.lt_succ_iff.mp hl))
            (le_trans hlen (Nat.lt_succ_iff.mp hl'))]
        | none =>
          simp only [List.length_cons] at hl hl'
          simp only [subNBGo, hM]
          rw [ih f' rest (Nat.lt_succ_iff.mp hl) (Nat.lt_succ_iff.mp hl')]

theorem subNB_nil (M : Str → Option Nat) (repl : Str) : subNB M repl [] = [] := rfl

theorem subNB_cons_match {M : Str → Option Nat} {repl : Str} {c : Char}
    {rest : Str} {n : Nat} (h : M (c :: rest) = some n) :
    subNB M repl (c :: rest) = repl ++ subNB M repl (rest.drop (n - 1)) := by
  show subNBGo M repl (rest.length + 1) (c :: rest) = _
  simp only [subNBGo, h]
  rw [subNBGo_irrel M repl rest.length (rest.drop (n - 1)).length (rest.drop (n - 1))
    (by simp [List.length_drop]) (Nat.le_refl _)]
  rfl

theorem subNB_cons_none {M : Str → Option Nat} {repl : Str} {c : Char}
    {rest : Str} (h : M (c :: rest) = none) :
    subNB M repl (c :: rest) = c :: subNB M repl rest := by
  show subNBGo M repl (rest.length + 1) (c :: rest) = _
  simp only [subNBGo, h]
  rfl

theorem subBGo_irrel (M : Option Char → Str → Option Nat) (repl : Str) :
    ∀ (fuel fuel' : Nat) (prev : Option Char) (l : Str),
      l.length ≤ fuel → l.length ≤ fuel' →
      subBGo M repl fuel prev l = subBGo M repl fuel' prev l := by
  intro fuel
  induction fuel with
  | zero =>
    intro fuel' prev l hl _
    have : l = [] := List.length_eq_zero.mp (Nat.le_zero.mp hl)
    subst this
    cases fuel' <;> rfl
  | succ f ih =>
    intro fuel' prev l hl hl'
    cases l with
    | nil => cases fuel' <;> rfl
    | cons c rest =>
      cases fuel' with
      | zero => simp at hl'
      | succ f' =>
        cases hM : M prev (c :: rest) with
        | some n =>
          have hlen : (rest.drop (n - 1)).length ≤ rest.length := by
            simp [List.length_drop]
          simp only [List.length_cons] at hl hl'
          simp only [subBGo, hM]
          rw [ih f' _ (rest.drop (n - 1)) (le_trans hlen (Nat.lt_succ_iff.mp hl))
            (le_trans hlen (Nat.lt_succ_iff.mp hl'))]
        | none =>
          simp only [List.length_cons] at hl hl'
          simp only [subBGo, hM]
          rw [ih f' _ rest (Nat.lt_succ_iff.mp hl) (Nat.lt_succ_iff.mp hl')]

theorem subB_nil (M : Option Char → Str → Option Nat) (repl : Str)
    (prev : Option Char) : subB M repl prev [] = [] := rfl

theorem subB_cons_match {M : Option Char → Str → Option Nat} {repl : Str}
    {prev : Option Char} {c : Char} {rest : Str} {n : Nat}
    (h : M prev (c :: rest) = some n) :
    subB M repl prev (c :: rest) =
      repl ++ subB M repl (some ((c :: rest).getD (n - 1) c)) (rest.drop (n - 1)) := by
  show subBGo M repl (rest.length + 1) prev (c :: rest) = _
  simp only [subBGo, h]
  rw [subBGo_irrel M repl rest.length (rest.drop (n - 1)).length _ (rest.drop (n - 1))
    (by simp [List.length_drop]) (Nat.le_refl _)]
  rfl

theorem subB_cons_none {M : Option Char → Str → Option Nat} {repl : Str}
    {prev : Option Char} {c : Char} {rest : Str} (h : M prev (c :: rest) = none) :
    subB M repl prev (c :: rest) = c :: subB M repl (some c) rest := by
  show subBGo M repl (rest.length + 1) prev (c :: rest) = _
  simp only [subBGo, h]
  rfl

/-! ### Search basics -/

theorem searchNB_nil (M : Str → Option Nat) : searchNB M [] = false := rfl

theorem searchNB_cons (M : Str → Option Nat) (c : Char) (rest : Str) :
    searchNB M (c :: rest) = ((M (c :: rest)).isSome || searchNB M rest) := rfl

theorem searchB_nil (M : Option Char → Str → Option Nat) (prev : Option Char) :
    searchB M prev [] = false := rfl

theorem searchB_cons (M : Option Char → Str → Option Nat) (prev : Option Char)
    (c : Char) (rest : Str) :
    searchB M prev (c :: rest) = ((M prev (c :: rest)).isSome || searchB M (some c) rest) :=
  rfl

theorem matcher_none_of_searchNB_false {M : Str → Option Nat} {c : Char} {rest : Str}
    (h : searchNB M (c :: rest) = false) : M (c :: rest) = none := by
  rw [searchNB_cons, Bool.or_eq_false_iff] at h
  exact Option.not_isSome_iff_eq_none.mp (by simp [h.1])

theorem searchNB_false_tail {M : Str → Option Nat} {c : Char} {rest : Str}
    (h : searchNB M (c :: rest) = false) : searchNB M rest = false := by
  rw [searchNB_cons, Bool.or_eq_false_iff] at h
  exact h.2

theorem searchNB_false_drop {M : Str → Option Nat} :
    ∀ {l : Str} (k : Nat), searchNB M l = false → searchNB M (l.drop k) = false
  | [], k, h => by simpa using h
  | c :: rest, 0, h => h
  | c :: rest, k + 1, h => by
    rw [List.drop_succ_cons]
    exact searchNB_false_drop k (searchNB_false_tail h)

/-- If no match starts anywhere, `re.sub` is the identity (context-free case). -/
theorem subNB_of_searchNB_false {M : Str → Option Nat} {repl : Str} :
    ∀ {l : Str}, searchNB M l = false → subNB M repl l = l
  | [], _ => rfl
  | c :: rest, h => by
    rw [subNB_cons_none (matcher_none_of_searchNB_false h)]
    rw [subNB_of_searchNB_false (searchNB_false_tail h)]

theorem matcherB_none_of_searchB_false {M : Option Char → Str → Option Nat}
    {prev : Option Char} {c : Char} {rest : Str}
    (h : searchB M prev (c :: rest) = false) : M prev (c :: rest) = none := by
  rw [searchB_cons, Bool.or_eq_false_iff] at h
  exact Option.not_isSome_iff_eq_none.mp (by simp [h.1])

theorem searchB_false_tail {M : Option Char → Str → Option Nat} {prev : Option Char}
    {c : Char} {rest : Str} (h : searchB M prev (c :: rest) = false) :
    searchB M (some c) rest = false := by
  rw [searchB_cons, Bool.or_eq_false_iff] at h
  exact h.2

/-- If no match starts anywhere, `re.sub` is the identity (boundary case). -/
theorem subB_of_searchB_false {M : Option Char → Str → Option Nat} {repl : Str} :
    ∀ {l : Str} {prev : Option Char}, searchB M prev l = false → subB M repl prev l = l
  | [], _, _ => rfl
  | c :: rest, prev, h => by
    rw [subB_cons_none (matcherB_none_of_searchB_false h)]
    rw [subB_of_searchB_false (searchB_false_tail h)]

/-! ### Head-failure lemmas for the three matchers -/

theorem emailMatchAt_not_local {c : Char} (hc : localChar c = false) (z : Str) :
    emailMatchAt (c :: z) = none := by
  have : leadingRun localChar (c :: z) = 0 := by simp [leadingRun, hc]
  simp [emailMatchAt, this]

theorem phoneMatchAt_bad_head {c : Char} (h1 : isDigitChar c = false) (h2 : ¬c = '+')
    (z : Str) : phoneMatchAt (c :: z) = none := by
  simp [phoneMatchAt, h2, phoneCore, h1]

theorem fnrMatchAt_not_digit {prev : Option Char} {c : Char}
    (hc : isDigitChar c = false) (z : Str) : fnrMatchAt prev (c :: z) = none := by
  have : leadingRun isDigitChar (c :: z) = 0 := by simp [leadingRun, hc]
  simp [fnrMatchAt, this]

/-! ### `emailBacktrack` / `phoneFind` characterisations -/

theorem emailBacktrack_isSome {rest2 : Str} {d : Nat} (hd1 : 1 ≤ d)
    (hdot : rest2.getD d '@' = '.')
    (halpha : 2 ≤ leadingRun isAlphaChar (rest2.drop (d + 1))) :
    ∀ {n : Nat}, d ≤ n → (emailBacktrack rest2 n).isSome = true := by
  intro n
  induction n with
  | zero => intro h; omega
  | succ k ih =>
    intro hdn
    simp only [emailBacktrack]
    by_cases hc : (decide (rest2.getD (k + 1) '@' = '.') &&
        decide (2 ≤ leadingRun isAlphaChar (rest2.drop (k + 2)))) = true
    · rw [if_pos hc]
      rfl
    · rw [if_neg hc]
      rcases Nat.lt_or_ge d (k + 1) with hlt | hge
      · exact ih (by omega)
      · have hdk : d = k + 1 := by omega
        subst hdk
        refine absurd ?_ hc
        rw [Bool.and_eq_true]
        exact ⟨decide_eq_true hdot, decide_eq_true halpha⟩

theorem emailBacktrack_spec {rest2 : Str} :
    ∀ {n m : Nat}, emailBacktrack rest2 n = some m →
      ∃ d, 1 ≤ d ∧ d ≤ n ∧ rest2.getD d '@' = '.' ∧
        2 ≤ leadingRun isAlphaChar (rest2.drop (d + 1)) := by
  intro n
  induction n with
  | zero => intro m h; exact absurd h (by simp [emailBacktrack])
  | succ k ih =>
    intro m h
    simp only [emailBacktrack] at h
    by_cases hc : (decide (rest2.getD (k + 1) '@' = '.') &&
        decide (2 ≤ leadingRun isAlphaChar (rest2.drop (k + 2)))) = true
    · rw [Bool.and_eq_true] at hc
      exact ⟨k + 1, by omega, Nat.le_refl _, of_decide_eq_true hc.1,
        of_decide_eq_true hc.2⟩
    · rw [if_neg hc] at h
      rcases ih h with ⟨d, h1, h2, h3, h4⟩
      exact ⟨d, h1, by omega, h3, h4⟩

theorem phoneFind_isSome {rest : Str} {k : Nat} (hk : 6 ≤ k)
    (hdig : isDigitChar (rest.getD k 'x') = true) :
    ∀ {n : Nat}, k ≤ n → (phoneFind rest n).isSome = true := by
  intro n
  induction n with
  | zero => intro h; omega
  | succ j ih =>
    intro hkn
    simp only [phoneFind]
    rw [if_neg (show ¬j + 1 < 6 by omega)]
    by_cases hd : isDigitChar (rest.getD (j + 1) 'x') = true
    · rw [if_pos hd]
      rfl
    · rw [if_neg hd]
      rcases Nat.lt_or_ge k (j + 1) with hlt | hge
      · exact ih (by omega)
      · have hkj : k = j + 1 := by omega
        subst hkj
        exact absurd hdig hd

theorem phoneFind_spec {rest : Str} :
    ∀ {n k : Nat}, phoneFind rest n = some k →
      6 ≤ k ∧ k ≤ n ∧ isDigitChar (rest.getD k 'x') = true := by
  intro n
  induction n with
  | zero => intro k h; exact absurd h (by simp [phoneFind])
  | succ j ih =>
    intro k h
    simp only [phoneFind] at h
    by_cases h6 : j + 1 < 6
    · rw [if_pos h6] at h
      exact absurd h (by simp)
    · rw [if_neg h6] at h
      by_cases hd : isDigitChar (rest.getD (j + 1) 'x') = true
      · rw [if_pos hd] at h
        cases h
        exact ⟨by omega, Nat.le_refl _, hd⟩
      · rw [if_neg hd] at h
        rcases ih h with ⟨h1, h2, h3⟩
        exact ⟨h1, by omega, h3⟩

/-! ### Elimination / introduction forms for the matchers -/

theorem emailMatchAt_some_elim {l : Str} {n : Nat} (h : emailMatchAt l = some n) :
    ∃ rest2, ¬leadingRun localChar l = 0 ∧
      l.drop (leadingRun localChar l) = '@' :: rest2 ∧
      (emailBacktrack rest2 (leadingRun domainChar rest2 - 1)).isSome = true := by
  simp only [emailMatchAt] at h
  by_cases h0 : leadingRun localChar l = 0
  · rw [if_pos h0] at h
    exact absurd h (by simp)
  · rw [if_neg h0] at h
    by_cases hh : (l.drop (leadingRun localChar l)).headD ' ' = '@'
    · rw [if_pos hh] at h
      cases hd : l.drop (leadingRun localChar l) with
      | nil =>
        rw [hd] at hh
        exact absurd hh (by decide)
      | cons c rest2 =>
        rw [hd] at hh h
        rw [List.headD_cons] at hh
        subst hh
        rw [List.tail_cons] at h
        cases hb : emailBacktrack rest2 (leadingRun domainChar rest2 - 1) with
        | some m => exact ⟨rest2, h0, rfl, by simp [hb]⟩
        | none =>
          rw [hb] at h
          exact absurd h (by simp)
    · rw [if_neg hh] at h
      exact absurd h (by simp)

theorem emailMatchAt_isSome_intro {l rest2 : Str}
    (h0 : ¬leadingRun localChar l = 0)
    (hd : l.drop (leadingRun localChar l) = '@' :: rest2)
    (hb : (emailBacktrack rest2 (leadingRun domainChar rest2 - 1)).isSome = true) :
    (emailMatchAt l).isSome = true := by
  simp only [emailMatchAt]
  rw [if_neg h0, hd]
  rw [List.headD_cons, List.tail_cons]
  rw [if_pos (rfl : ('@' : Char) = '@')]
  rcases Option.isSome_iff_exists.mp hb with ⟨m, hm⟩
  rw [hm]
  rfl

theorem phoneCore_some_elim {l : Str} {n : Nat} (h : phoneCore l = some n) :
    ∃ c rest, l = c :: rest ∧ isDigitChar c = true ∧
      (phoneFind rest (leadingRun phoneInner rest - 1)).isSome = true := by
  cases l with
  | nil => exact absurd h (by simp [phoneCore])
  | cons c rest =>
    simp only [phoneCore] at h
    by_cases hc : isDigitChar c = true
    · rw [if_pos hc] at h
      cases hf : phoneFind rest (leadingRun phoneInner rest - 1) with
      | some k => exact ⟨c, rest, rfl, hc, by rw [hf]; rfl⟩
      | none =>
        rw [hf] at h
        exact absurd h (by simp)
    · rw [if_neg hc] at h
      exact absurd h (by simp)

theorem phoneCore_isSome_intro {c : Char} {rest : Str} (hc : isDigitChar c = true)
    (hf : (phoneFind rest (leadingRun phoneInner rest - 1)).isSome = true) :
    (phoneCore (c :: rest)).isSome = true := by
  simp only [phoneCore]
  rw [if_pos hc]
  rcases Option.isSome_iff_exists.mp hf with ⟨k, hk⟩
  rw [hk]
  rfl

/-! ### Truncation / extension lemmas

A match that fits before a `[` (the first character of every replacement
token, excluded from every character class of the three patterns) survives
arbitrary replacement of what follows the `[`.  These lemmas drive the
leftover arguments: text the scanner skipped cannot re-match after later
text has been replaced by a token. -/

theorem emailMatchAt_extend {x w : Str} {n : Nat}
    (h : emailMatchAt (x ++ '[' :: w) = some n) (tail : Str) :
    (emailMatchAt (x ++ tail)).isSome = true := by
  have hlb : localChar '[' = false := by decide
  have hrunL : leadingRun localChar (x ++ '[' :: w) = leadingRun localChar x :=
    leadingRun_append_blocker hlb x w
  rcases emailMatchAt_some_elim h with ⟨rest2, h0, hd, hb⟩
  rw [hrunL] at h0 hd
  have hrle : leadingRun localChar x ≤ x.length := leadingRun_le_length localChar x
  have hrlt : leadingRun localChar x < x.length := by
    rcases Nat.lt_or_ge (leadingRun localChar x) x.length with h' | h'
    · exact h'
    · exfalso
      have hre : leadingRun localChar x = x.length := Nat.le_antisymm hrle h'
      rw [hre, List.drop_left] at hd
      injection hd with hd1 _
      exact absurd hd1 (by decide)
  have hsplit : (x ++ '[' :: w).drop (leadingRun localChar x) =
      x.drop (leadingRun localChar x) ++ '[' :: w :=
    List.drop_append_of_le_length hrle
  rw [hsplit] at hd
  cases hxd : x.drop (leadingRun localChar x) with
  | nil =>
    exfalso
    have := congrArg List.length hxd
    simp [List.length_drop] at this
    omega
  | cons c x2 =>
    rw [hxd] at hd
    rw [List.cons_append] at hd
    injection hd with hc hrest2
    subst hc
    subst hrest2
    -- analyse the backtracking certificate inside `x2`
    have hdb : domainChar '[' = false := by decide
    have hab : isAlphaChar '[' = false := by decide
    have hr2 : leadingRun domainChar (x2 ++ '[' :: w) = leadingRun domainChar x2 :=
      leadingRun_append_blocker hdb x2 w
    rw [hr2] at hb
    rcases Option.isSome_iff_exists.mp hb with ⟨m, hm⟩
    rcases emailBacktrack_spec hm with ⟨d, hd1, hdle, hdot, halp⟩
    have hr2le : leadingRun domainChar x2 ≤ x2.length := leadingRun_le_length _ x2
    have hdlt : d < x2.length := by omega
    have hdot2 : x2.getD d '@' = '.' := by
      rw [List.getD_append x2 ('[' :: w) '@' d hdlt] at hdot
      exact hdot
    have halp2 : 2 ≤ leadingRun isAlphaChar (x2.drop (d + 1)) := by
      rw [List.drop_append_of_le_length (by omega)] at halp
      rw [leadingRun_append_blocker hab] at halp
      exact halp
    -- now rebuild the match in `x ++ tail`
    have hrunF : leadingRun localChar (x ++ tail) = leadingRun localChar x :=
      leadingRun_append_of_lt hrlt tail
    have hdF : (x ++ tail).drop (leadingRun localChar x) = '@' :: (x2 ++ tail) := by
      rw [List.drop_append_of_le_length hrle, hxd, List.cons_append]
    have hr2F : leadingRun domainChar x2 ≤ leadingRun domainChar (x2 ++ tail) :=
      leadingRun_prefix_le _ x2 tail
    have hdotF : (x2 ++ tail).getD d '@' = '.' := by
      rw [List.getD_append x2 tail '@' d hdlt]
      exact hdot2
    have halpF : 2 ≤ leadingRun isAlphaChar ((x2 ++ tail).drop (d + 1)) := by
      rw [List.drop_append_of_le_length (by omega)]
      exact le_trans halp2 (leadingRun_prefix_le _ _ _)
    have hbF : (emailBacktrack (x2 ++ tail)
        (leadingRun domainChar (x2 ++ tail) - 1)).isSome = true :=
      emailBacktrack_isSome hd1 hdotF halpF (by omega)
    refine emailMatchAt_isSome_intro ?_ ?_ hbF
    · rw [hrunF]; exact h0
    · rw [hrunF]; exact hdF

theorem phoneCore_extend {x w : Str} {n : Nat} (h : phoneCore (x ++ '[' :: w) = some n)
    (tail : Str) : (phoneCore (x ++ tail)).isSome = true := by
  have hpb : phoneInner '[' = false := by decide
  rcases phoneCore_some_elim h with ⟨c, rest, heq, hc, hf⟩
  cases x with
  | nil =>
    rw [List.nil_append] at heq
    injection heq with h1 _
    rw [← h1] at hc
    exact absurd hc (by decide)
  | cons a x1 =>
    rw [List.cons_append] at heq
    injection heq with h1 h2
    subst h1
    rw [← h2] at hf
    have hrun : leadingRun phoneInner (x1 ++ '[' :: w) = leadingRun phoneInner x1 :=
      leadingRun_append_blocker hpb x1 w
    rw [hrun] at hf
    rcases Option.isSome_iff_exists.mp hf with ⟨k, hk⟩
    rcases phoneFind_spec hk with ⟨hk6, hkle, hkdig⟩
    have hmle : leadingRun phoneInner x1 ≤ x1.length := leadingRun_le_length _ x1
    have hklt : k < x1.length := by omega
    have hkdig1 : isDigitChar (x1.getD k 'x') = true := by
      rw [List.getD_append x1 ('[' :: w) 'x' k hklt] at hkdig
      exact hkdig
    rw [List.cons_append]
    refine phoneCore_isSome_intro hc ?_
    have hkdigF : isDigitChar ((x1 ++ tail).getD k 'x') = true := by
      rw [List.getD_append x1 tail 'x' k hklt]
      exact hkdig1
    refine phoneFind_isSome hk6 hkdigF ?_
    have := leadingRun_prefix_le phoneInner x1 tail
    omega

theorem phoneMatchAt_extend {x w : Str} {n : Nat}
    (h : phoneMatchAt (x ++ '[' :: w) = some n) (tail : Str) :
    (phoneMatchAt (x ++ tail)).isSome = true := by
  cases x with
  | nil =>
    rw [List.nil_append] at h
    rw [phoneMatchAt_bad_head (by decide) (by decide) w] at h
    exact absurd h (by simp)
  | cons a x1 =>
    by_cases ha : a = '+'
    · subst ha
      rw [List.cons_append] at h
      simp only [phoneMatchAt, if_pos rfl] at h
      rcases Option.map_eq_some'.mp h with ⟨n', hn', _⟩
      have := phoneCore_extend (x := x1) (w := w) hn' tail
      rw [List.cons_append]
      simp only [phoneMatchAt, if_pos rfl]
      rcases Option.isSome_iff_exists.mp this with ⟨k, hk⟩
      rw [hk]
      rfl
    · rw [List.cons_append] at h
      simp only [phoneMatchAt, if_neg ha] at h
      rw [← List.cons_append] at h
      have := phoneCore_extend (x := a :: x1) (w := w) h tail
      rw [List.cons_append]
      simp only [phoneMatchAt, if_neg ha]
      rw [← List.cons_append]
      exact this

theorem fnrMatchAt_restrict {prev : Option Char} {x w : Str} {n : Nat}
    (h : fnrMatchAt prev (x ++ '[' :: w) = some n) :
    (fnrMatchAt prev x).isSome = true := by
  have hdb : isDigitChar '[' = false := by decide
  simp only [fnrMatchAt] at h
  by_cases hcond : (prevBoundary prev &&
      decide (11 ≤ leadingRun isDigitChar (x ++ '[' :: w)) &&
      (match (x ++ '[' :: w).drop 11 with | [] => true | c :: _ => !isWordChar c)) = true
  · rw [Bool.and_eq_true, Bool.and_eq_true] at hcond
    obtain ⟨⟨hprev, hdig⟩, hafter⟩ := hcond
    have hdig' : 11 ≤ leadingRun isDigitChar (x ++ '[' :: w) := of_decide_eq_true hdig
    rw [leadingRun_append_blocker hdb] at hdig'
    have h11 : 11 ≤ x.length := le_trans hdig' (leadingRun_le_length _ x)
    have hdropr : (x ++ '[' :: w).drop 11 = x.drop 11 ++ '[' :: w :=
      List.drop_append_of_le_length h11
    simp only [fnrMatchAt]
    have hcx : (prevBoundary prev && decide (11 ≤ leadingRun isDigitChar x) &&
        (match x.drop 11 with | [] => true | c :: _ => !isWordChar c)) = true := by
      rw [Bool.and_eq_true, Bool.and_eq_true]
      refine ⟨⟨hprev, decide_eq_true hdig'⟩, ?_⟩
      cases hxd : x.drop 11 with
      | nil => rfl
      | cons c t =>
        rw [hdropr, hxd, List.cons_append] at hafter
        exact hafter
    rw [if_pos hcx]
    rfl
  · rw [if_neg hcond] at h
    exact absurd h (by simp)

/-- Restriction to the bare prefix: a match ending before a token start
also matches with everything after the token removed. -/
theorem emailMatchAt_restrict {x w : Str} {n : Nat}
    (h : emailMatchAt (x ++ '[' :: w) = some n) : (emailMatchAt x).isSome = true := by
  have := emailMatchAt_extend h []
  rwa [List.append_nil] at this

theorem phoneMatchAt_restrict {x w : Str} {n : Nat}
    (h : phoneMatchAt (x ++ '[' :: w) = some n) : (phoneMatchAt x).isSome = true := by
  have := phoneMatchAt_extend h []
  rwa [List.append_nil] at this

/-! ### Token transparency: no pattern can match into or across a sentinel -/

theorem emailMatchAt_local_bracket {u : Str} (h : ∀ c ∈ u, localChar c = true)
    (y : Str) : emailMatchAt (u ++ ']' :: y) = none := by
  have hb : localChar ']' = false := by decide
  have hrun : leadingRun localChar (u ++ ']' :: y) = u.length := by
    rw [leadingRun_append_blocker hb, leadingRun_eq_length_of_all h]
  simp only [emailMatchAt]
  rw [hrun]
  by_cases h0 : u.length = 0
  · rw [if_pos h0]
  · rw [if_neg h0]
    have hdrop : (u ++ ']' :: y).drop u.length = ']' :: y := List.drop_left u _
    rw [hdrop, List.headD_cons]
    rw [if_neg (by decide : ¬(']' : Char) = '@')]

theorem searchNB_email_skip {u : Str} (h : ∀ c ∈ u, localChar c = true) (y : Str) :
    searchNB emailMatchAt (u ++ ']' :: y) = searchNB emailMatchAt y := by
  induction u with
  | nil =>
    rw [List.nil_append, searchNB_cons]
    rw [emailMatchAt_not_local (by decide) y]
    simp
  | cons a u1 ih =>
    have hnone : emailMatchAt ((a :: u1) ++ ']' :: y) = none :=
      emailMatchAt_local_bracket h y
    rw [List.cons_append] at hnone
    rw [List.cons_append, searchNB_cons, hnone]
    simp only [Option.isSome_none, Bool.false_or]
    exact ih (fun c hc => h c (List.mem_cons_of_mem a hc))

theorem searchNB_email_emailToken (y : Str) :
    searchNB emailMatchAt (emailToken ++ y) = searchNB emailMatchAt y := by
  have hform : emailToken ++ y = '[' :: (strOf "REDACTED_EMAIL" ++ ']' :: y) := rfl
  rw [hform, searchNB_cons, emailMatchAt_not_local (by decide) _]
  simp only [Option.isSome_none, Bool.false_or]
  exact searchNB_email_skip (by decide) y

theorem searchNB_email_fnrToken (y : Str) :
    searchNB emailMatchAt (fnrToken ++ y) = searchNB emailMatchAt y := by
  have hform : fnrToken ++ y = '[' :: (strOf "REDACTED_FNR" ++ ']' :: y) := rfl
  rw [hform, searchNB_cons, emailMatchAt_not_local (by decide) _]
  simp only [Option.isSome_none, Bool.false_or]
  exact searchNB_email_skip (by decide) y

theorem searchNB_email_phoneToken (y : Str) :
    searchNB emailMatchAt (phoneToken ++ y) = searchNB emailMatchAt y := by
  have hform : phoneToken ++ y = '[' :: (strOf "REDACTED_PHONE" ++ ']' :: y) := rfl
  rw [hform, searchNB_cons, emailMatchAt_not_local (by decide) _]
  simp only [Option.isSome_none, Bool.false_or]
  exact searchNB_email_skip (by decide) y

theorem searchNB_phone_skip {u : Str}
    (h : ∀ c ∈ u, isDigitChar c = false ∧ ¬c = '+') (y : Str) :
    searchNB phoneMatchAt (u ++ y) = searchNB phoneMatchAt y := by
  induction u with
  | nil => rw [List.nil_append]
  | cons a u1 ih =>
    rw [List.cons_append, searchNB_cons]
    rw [phoneMatchAt_bad_head (h a (List.mem_cons_self a u1)).1
      (h a (List.mem_cons_self a u1)).2 _]
    simp only [Option.isSome_none, Bool.false_or]
    exact ih (fun c hc => h c (List.mem_cons_of_mem a hc))

theorem searchNB_phone_phoneToken (y : Str) :
    searchNB phoneMatchAt (phoneToken ++ y) = searchNB phoneMatchAt y :=
  searchNB_phone_skip (by decide) y

/-! ### Shape of a substitution output -/

/-- Every replacement token starts with `[`: the output of a substitution is
either the input unchanged or a prefix of the input followed by `[`. -/
theorem subNB_shape {M : Str → Option Nat} {repl : Str}
    (hrepl : ∃ rtl, repl = '[' :: rtl) :
    ∀ (fuel : Nat) (l : Str), l.length ≤ fuel →
      subNB M repl l = l ∨
        ∃ p z, p ≤ l.length ∧ subNB M repl l = l.take p ++ '[' :: z := by
  intro fuel
  induction fuel with
  | zero =>
    intro l hl
    left
    have hnil : l = [] := List.length_eq_zero.mp (Nat.le_zero.mp hl)
    subst hnil
    rfl
  | succ k ih =>
    intro l hl
    cases l with
    | nil => left; rfl
    | cons c rest =>
      rw [List.length_cons] at hl
      cases hM : M (c :: rest) with
      | some m =>
        right
        rcases hrepl with ⟨rtl, hr⟩
        refine ⟨0, rtl ++ subNB M repl (rest.drop (m - 1)), Nat.zero_le _, ?_⟩
        rw [subNB_cons_match hM, hr]
        rfl
      | none =>
        rw [subNB_cons_none hM]
        rcases ih rest (by omega) with h | ⟨p, z, hp, hz⟩
        · left
          rw [h]
        · right
          refine ⟨p + 1, z, by simp; omega, ?_⟩
          rw [hz, List.take_succ_cons, List.cons_append]

theorem subB_shape {M : Option Char → Str → Option Nat} {repl : Str}
    (hrepl : ∃ rtl, repl = '[' :: rtl) :
    ∀ (fuel : Nat) (prev : Option Char) (l : Str), l.length ≤ fuel →
      subB M repl prev l = l ∨
        ∃ p z, p ≤ l.length ∧ subB M repl prev l = l.take p ++ '[' :: z := by
  intro fuel
  induction fuel with
  | zero =>
    intro prev l hl
    left
    have hnil : l = [] := List.length_eq_zero.mp (Nat.le_zero.mp hl)
    subst hnil
    rfl
  | succ k ih =>
    intro prev l hl
    cases l with
    | nil => left; rfl
    | cons c rest =>
      rw [List.length_cons] at hl
      cases hM : M prev (c :: rest) with
      | some m =>
        right
        rcases hrepl with ⟨rtl, hr⟩
        refine ⟨0, rtl ++ subB M repl (some ((c :: rest).getD (m - 1) c))
          (rest.drop (m - 1)), Nat.zero_le _, ?_⟩
        rw [subB_cons_match hM, hr]
        rfl
      | none =>
        rw [subB_cons_none hM]
        rcases ih (some c) rest (by omega) with h | ⟨p, z, hp, hz⟩
        · left
          rw [h]
        · right
          refine ⟨p + 1, z, by simp; omega, ?_⟩
          rw [hz, List.take_succ_cons, List.cons_append]

/-- A context-free matcher that fails at a position keeps failing there after
the tail has been partially replaced by bracketed tokens. -/
theorem matchAt_none_cons_shape {M : Str → Option Nat}
    (hMext : ∀ {x w : Str} {n : Nat},
      M (x ++ '[' :: w) = some n → ∀ tail : Str, (M (x ++ tail)).isSome = true)
    {c : Char} {rest out : Str}
    (hshape : out = rest ∨ ∃ p z, p ≤ rest.length ∧ out = rest.take p ++ '[' :: z)
    (hnone : M (c :: rest) = none) : M (c :: out) = none := by
  rcases hshape with rfl | ⟨p, z, hp, rfl⟩
  · exact hnone
  · cases hm : M (c :: (rest.take p ++ '[' :: z)) with
    | none => rfl
    | some n =>
      exfalso
      have h1 : M ((c :: rest.take p) ++ '[' :: z) = some n := by
        rw [List.cons_append]
        exact hm
      have h2 := hMext h1 (rest.drop p)
      rw [List.cons_append, List.take_append_drop] at h2
      rw [hnone] at h2
      exact absurd h2 (by simp)

/-! ### Leftover property: after `re.sub`, the pattern no longer matches -/

theorem searchNB_sub_self {M : Str → Option Nat} {tok : Str}
    (hMext : ∀ {x w : Str} {n : Nat},
      M (x ++ '[' :: w) = some n → ∀ tail : Str, (M (x ++ tail)).isSome = true)
    (htok : ∀ y, searchNB M (tok ++ y) = searchNB M y)
    (hhead : ∃ rtl, tok = '[' :: rtl) :
    ∀ (fuel : Nat) (l : Str), l.length ≤ fuel →
      searchNB M (subNB M tok l) = false := by
  intro fuel
  induction fuel with
  | zero =>
    intro l hl
    have hnil : l = [] := List.length_eq_zero.mp (Nat.le_zero.mp hl)
    subst hnil
    rfl
  | succ k ih =>
    intro l hl
    cases l with
    | nil => rfl
    | cons c rest =>
      rw [List.length_cons] at hl
      cases hM : M (c :: rest) with
      | some m =>
        rw [subNB_cons_match hM, htok]
        exact ih _ (by simp [List.length_drop]; omega)
      | none =>
        rw [subNB_cons_none hM, searchNB_cons]
        rw [matchAt_none_cons_shape hMext
          (subNB_shape hhead rest.length rest (Nat.le_refl _)) hM]
        simp only [Option.isSome_none, Bool.false_or]
        exact ih rest (by omega)

theorem searchNB_email_subNB_email (l : Str) :
    searchNB emailMatchAt (subNB emailMatchAt emailToken l) = false :=
  searchNB_sub_self (fun h tail => emailMatchAt_extend h tail)
    searchNB_email_emailToken ⟨strOf "REDACTED_EMAIL" ++ [']'], by decide⟩
    l.length l (Nat.le_refl _)

theorem searchNB_phone_subNB_phone (l : Str) :
    searchNB phoneMatchAt (subNB phoneMatchAt phoneToken l) = false :=
  searchNB_sub_self (fun h tail => phoneMatchAt_extend h tail)
    searchNB_phone_phoneToken ⟨strOf "REDACTED_PHONE" ++ [']'], by decide⟩
    l.length l (Nat.le_refl _)

/-! ### Email-freeness is preserved by the FNR and phone substitutions -/

theorem searchNB_email_subNB_phone :
    ∀ (fuel : Nat) (l : Str), l.length ≤ fuel →
      searchNB emailMatchAt l = false →
      searchNB emailMatchAt (subNB phoneMatchAt phoneToken l) = false := by
  intro fuel
  induction fuel with
  | zero =>
    intro l hl _
    have hnil : l = [] := List.length_eq_zero.mp (Nat.le_zero.mp hl)
    subst hnil
    rfl
  | succ k ih =>
    intro l hl h
    cases l with
    | nil => rfl
    | cons c rest =>
      rw [List.length_cons] at hl
      cases hM : phoneMatchAt (c :: rest) with
      | some m =>
        rw [subNB_cons_match hM, searchNB_email_phoneToken]
        exact ih _ (by simp [List.length_drop]; omega)
          (searchNB_false_drop _ (searchNB_false_tail h))
      | none =>
        rw [subNB_cons_none hM, searchNB_cons]
        rw [matchAt_none_cons_shape (fun h tail => emailMatchAt_extend h tail)
          (subNB_shape ⟨strOf "REDACTED_PHONE" ++ [']'], by decide⟩
            rest.length rest (Nat.le_refl _))
          (matcher_none_of_searchNB_false h)]
        simp only [Option.isSome_none, Bool.false_or]
        exact ih rest (by omega) (searchNB_false_tail h)

theorem searchNB_email_subB_fnr :
    ∀ (fuel : Nat) (prev : Option Char) (l : Str), l.length ≤ fuel →
      searchNB emailMatchAt l = false →
      searchNB emailMatchAt (subB fnrMatchAt fnrToken prev l) = false := by
  intro fuel
  induction fuel with
  | zero =>
    intro prev l hl _
    have hnil : l = [] := List.length_eq_zero.mp (Nat.le_zero.mp hl)
    subst hnil
    rfl
  | succ k ih =>
    intro prev l hl h
    cases l with
    | nil => rfl
    | cons c rest =>
      rw [List.length_cons] at hl
      cases hM : fnrMatchAt prev (c :: rest) with
      | some m =>
        rw [subB_cons_match hM, searchNB_email_fnrToken]
        exact ih _ _ (by simp [List.length_drop]; omega)
          (searchNB_false_drop _ (searchNB_false_tail h))
      | none =>
        rw [subB_cons_none hM, searchNB_cons]
        rw [matchAt_none_cons_shape (fun h tail => emailMatchAt_extend h tail)
          (subB_shape ⟨strOf "REDACTED_FNR" ++ [']'], by decide⟩
            rest.length (some c) rest (Nat.le_refl _))
          (matcher_none_of_searchNB_false h)]
        simp only [Option.isSome_none, Bool.false_or]
        exact ih (some c) rest (by omega) (searchNB_false_tail h)

/-! ### An FNR match implies a phone match -/

theorem leadingRun_mono {p q : Char → Bool} (h : ∀ c, p c = true → q c = true) :
    ∀ l : Str, leadingRun p l ≤ leadingRun q l
  | [] => Nat.le_refl 0
  | c :: rest => by
    by_cases hc : p c = true
    · rw [leadingRun_cons, leadingRun_cons, if_pos hc, if_pos (h c hc)]
      exact Nat.succ_le_succ (leadingRun_mono h rest)
    · rw [leadingRun_cons, if_neg hc]
      exact Nat.zero_le _

theorem searchB_fnr_implies_phone :
    ∀ (l : Str) (prev : Option Char), searchB fnrMatchAt prev l = true →
      searchNB phoneMatchAt l = true := by
  intro l
  induction l with
  | nil =>
    intro prev h
    rw [searchB_nil] at h
    exact absurd h (by simp)
  | cons c rest ih =>
    intro prev h
    rw [searchB_cons] at h
    rw [searchNB_cons]
    rcases Bool.or_eq_true_iff.mp h with h1 | h2
    · rcases Option.isSome_iff_exists.mp h1 with ⟨n, hn⟩
      have hcond : (prevBoundary prev &&
          decide (11 ≤ leadingRun isDigitChar (c :: rest)) &&
          (match (c :: rest).drop 11 with | [] => true | d :: _ => !isWordChar d))
          = true := by
        by_contra hcc
        simp only [fnrMatchAt] at hn
        rw [if_neg hcc] at hn
        exact absurd hn (by simp)
      rw [Bool.and_eq_true, Bool.and_eq_true] at hcond
      have hdig : 11 ≤ leadingRun isDigitChar (c :: rest) :=
        of_decide_eq_true hcond.1.2
      have hc : isDigitChar c = true := by
        by_contra hcx
        rw [leadingRun_cons, if_neg hcx] at hdig
        omega
      have hrest : 10 ≤ leadingRun isDigitChar rest := by
        rw [leadingRun_cons, if_pos hc] at hdig
        omega
      have hmono : leadingRun isDigitChar rest ≤ leadingRun phoneInner rest :=
        leadingRun_mono (fun x hx => by
          unfold isDigitChar at hx
          simp [phoneInner, hx]) rest
      have h9 : isDigitChar (rest.getD 9 'x') = true :=
        pred_of_lt_leadingRun (by omega) 'x'
      have hfind : (phoneFind rest (leadingRun phoneInner rest - 1)).isSome = true :=
        phoneFind_isSome (by omega) h9 (by omega)
      have hcore := phoneCore_isSome_intro hc hfind
      have hcp : ¬c = '+' := by
        intro hcc
        rw [hcc] at hc
        exact absurd hc (by decide)
      have hpm : phoneMatchAt (c :: rest) = phoneCore (c :: rest) := by
        simp only [phoneMatchAt, if_neg hcp]
      rw [hpm, hcore]
      rfl
    · rw [ih (some c) h2]
      simp

/-! ### The master theorems about `redact_string` -/

/-- The output of `redact_string` never still contains obvious PII: every
email match is removed by the email pass and cannot reappear (replacement
tokens contain no `@` and block every run), every phone match is removed by
the final pass, and an FNR match would entail 11 consecutive digits, which
always contain a phone match. -/
theorem contains_obvious_pii_redact_string (s : Str) :
    contains_obvious_pii (redact_string s) = false := by
  unfold contains_obvious_pii redact_string
  have hphone : searchNB phoneMatchAt
      (subNB phoneMatchAt phoneToken
        (subB fnrMatchAt fnrToken none (subNB emailMatchAt emailToken s))) = false :=
    searchNB_phone_subNB_phone _
  have hemail : searchNB emailMatchAt
      (subNB phoneMatchAt phoneToken
        (subB fnrMatchAt fnrToken none (subNB emailMatchAt emailToken s))) = false := by
    refine searchNB_email_subNB_phone _ _ (Nat.le_refl _) ?_
    refine searchNB_email_subB_fnr _ _ _ (Nat.le_refl _) ?_
    exact searchNB_email_subNB_email s
  have hfnr : searchB fnrMatchAt none
      (subNB phoneMatchAt phoneToken
        (subB fnrMatchAt fnrToken none (subNB emailMatchAt emailToken s))) = false := by
    by_contra hx
    have := searchB_fnr_implies_phone _ none (Bool.of_not_eq_false hx)
    rw [hphone] at this
    exact absurd this (by simp)
  rw [hemail, hphone, hfnr]
  rfl

/-- On a string with no obvious PII, `redact_string` is the identity. -/
theorem redact_string_id_of_no_pii {s : Str} (h : contains_obvious_pii s = false) :
    redact_string s = s := by
  unfold contains_obvious_pii at h
  rw [Bool.or_eq_false_iff, Bool.or_eq_false_iff] at h
  unfold redact_string
  rw [subNB_of_searchNB_false h.1.1, subB_of_searchB_false h.2,
    subNB_of_searchNB_false h.1.2]

/-- `redact_string` is idempotent. -/
theorem redact_string_idem (s : Str) :
    redact_string (redact_string s) = redact_string s :=
  redact_string_id_of_no_pii (contains_obvious_pii_redact_string s)

/-! ### Plain extension: a match survives appending text on the right -/

theorem emailMatchAt_append {x : Str} {n : Nat} (h : emailMatchAt x = some n)
    (tail : Str) : (emailMatchAt (x ++ tail)).isSome = true := by
  rcases emailMatchAt_some_elim h with ⟨x2, h0, hd, hb⟩
  have hrlt : leadingRun localChar x < x.length := by
    by_contra hge
    have : x.drop (leadingRun localChar x) = [] :=
      List.drop_of_length_le (by omega)
    rw [this] at hd
    exact absurd hd (by simp)
  rcases Option.isSome_iff_exists.mp hb with ⟨m, hm⟩
  rcases emailBacktrack_spec hm with ⟨d, hd1, hdle, hdot, halp⟩
  have hx2 : x2.length < x.length := by
    have := congrArg List.length hd
    simp [List.length_drop] at this
    omega
  have hr2le : leadingRun domainChar x2 ≤ x2.length := leadingRun_le_length _ x2
  have hdlt : d < x2.length := by omega
  have hrunF : leadingRun localChar (x ++ tail) = leadingRun localChar x :=
    leadingRun_append_of_lt hrlt tail
  have hdF : (x ++ tail).drop (leadingRun localChar x) = '@' :: (x2 ++ tail) := by
    rw [List.drop_append_of_le_length (Nat.le_of_lt hrlt), hd, List.cons_append]
  have hdotF : (x2 ++ tail).getD d '@' = '.' := by
    rw [List.getD_append x2 tail '@' d hdlt]
    exact hdot
  have halpF : 2 ≤ leadingRun isAlphaChar ((x2 ++ tail).drop (d + 1)) := by
    rw [List.drop_append_of_le_length (by omega)]
    exact le_trans halp (leadingRun_prefix_le _ _ _)
  have hr2F : leadingRun domainChar x2 ≤ leadingRun domainChar (x2 ++ tail) :=
    leadingRun_prefix_le _ x2 tail
  have hbF : (emailBacktrack (x2 ++ tail)
      (leadingRun domainChar (x2 ++ tail) - 1)).isSome = true :=
    emailBacktrack_isSome hd1 hdotF halpF (by omega)
  refine emailMatchAt_isSome_intro ?_ ?_ hbF
  · rw [hrunF]; exact h0
  · rw [hrunF]; exact hdF

theorem phoneMatchAt_append {x : Str} {n : Nat} (h : phoneMatchAt x = some n)
    (tail : Str) : (phoneMatchAt (x ++ tail)).isSome = true := by
  have hcore : ∀ {y : Str} {k : Nat}, phoneCore y = some k →
      (phoneCore (y ++ tail)).isSome = true := by
    intro y k hy
    rcases phoneCore_some_elim hy with ⟨c, rest, rfl, hc, hf⟩
    rcases Option.isSome_iff_exists.mp hf with ⟨j, hj⟩
    rcases phoneFind_spec hj with ⟨hj6, hjle, hjdig⟩
    have hmle : leadingRun phoneInner rest ≤ rest.length := leadingRun_le_length _ rest
    have hjlt : j < rest.length := by omega
    rw [List.cons_append]
    refine phoneCore_isSome_intro hc ?_
    have hdigF : isDigitChar ((rest ++ tail).getD j 'x') = true := by
      rw [List.getD_append rest tail 'x' j hjlt]
      exact hjdig
    refine phoneFind_isSome hj6 hdigF ?_
    have := leadingRun_prefix_le phoneInner rest tail
    omega
  cases x with
  | nil =>
    exact absurd h (by simp [phoneMatchAt])
  | cons a x1 =>
    by_cases ha : a = '+'
    · subst ha
      simp only [phoneMatchAt, if_pos rfl] at h
      rcases Option.map_eq_some'.mp h with ⟨k, hk, _⟩
      rw [List.cons_append]
      simp only [phoneMatchAt, if_pos rfl]
      rcases Option.isSome_iff_exists.mp (hcore hk) with ⟨j, hj⟩
      rw [hj]
      rfl
    · simp only [phoneMatchAt, if_neg ha] at h
      rw [List.cons_append]
      simp only [phoneMatchAt, if_neg ha]
      rw [← List.cons_append]
      exact hcore h

/-! ### Search is monotone under embedding as an infix -/

theorem searchNB_append_left {M : Str → Option Nat} (a : Str) {z : Str}
    (h : searchNB M z = true) : searchNB M (a ++ z) = true := by
  induction a with
  | nil => simpa using h
  | cons c a1 ih =>
    rw [List.cons_append, searchNB_cons, ih]
    simp

theorem searchNB_extend {M : Str → Option Nat}
    (hMapp : ∀ {x : Str} {n : Nat}, M x = some n → ∀ tail : Str,
      (M (x ++ tail)).isSome = true) {u : Str} (b : Str)
    (h : searchNB M u = true) : searchNB M (u ++ b) = true := by
  induction u with
  | nil => simp [searchNB_nil] at h
  | cons c u1 ih =>
    rw [searchNB_cons] at h
    rcases Bool.or_eq_true_iff.mp h with h1 | h2
    · rcases Option.isSome_iff_exists.mp h1 with ⟨n, hn⟩
      rw [List.cons_append, searchNB_cons, ← List.cons_append, hMapp hn b]
      simp
    · rw [List.cons_append, searchNB_cons, ih h2]
      simp

/-- `contains_obvious_pii` is monotone under taking superstrings: a PII
match inside `u` yields one inside `a ++ u ++ b` (an FNR match contains 11
consecutive digits, hence a context-free phone match). -/
theorem contains_obvious_pii_infix {u : Str} (a b : Str)
    (h : contains_obvious_pii u = true) :
    contains_obvious_pii (a ++ u ++ b) = true := by
  unfold contains_obvious_pii at h ⊢
  rcases Bool.or_eq_true_iff.mp h with h' | hfnr
  · rcases Bool.or_eq_true_iff.mp h' with hemail | hphone
    · have h1 : searchNB emailMatchAt (u ++ b) = true :=
        searchNB_extend (fun hx tail => emailMatchAt_append hx tail) b hemail
      have h2 : searchNB emailMatchAt (a ++ (u ++ b)) = true :=
        searchNB_append_left a h1
      rw [List.append_assoc, h2]
      simp
    · have h1 : searchNB phoneMatchAt (u ++ b) = true :=
        searchNB_extend (fun hx tail => phoneMatchAt_append hx tail) b hphone
      have h2 : searchNB phoneMatchAt (a ++ (u ++ b)) = true :=
        searchNB_append_left a h1
      rw [List.append_assoc, h2]
      simp
  · have hphone : searchNB phoneMatchAt u = true :=
      searchB_fnr_implies_phone u none hfnr
    have h1 : searchNB phoneMatchAt (u ++ b) = true :=
      searchNB_extend (fun hx tail => phoneMatchAt_append hx tail) b hphone
    have h2 : searchNB phoneMatchAt (a ++ (u ++ b)) = true :=
      searchNB_append_left a h1
    rw [List.append_assoc, h2]
    simp

/-- No string still containing obvious PII occurs verbatim inside the
output of `redact_string`. -/
theorem redact_string_no_pii_infix (s u : Str)
    (hu : contains_obvious_pii u = true) :
    ¬∃ a b, redact_string s = a ++ u ++ b := by
  rintro ⟨a, b, hab⟩
  have hfree := contains_obvious_pii_redact_string s
  rw [hab, contains_obvious_pii_infix a b hu] at hfree
  exact absurd hfree (by simp)

/-! ### Already-redacted strings: sentinel tokens interleaved with clean text -/

theorem pii_split {s : Str} (h : contains_obvious_pii s = false) :
    searchNB emailMatchAt s = false ∧ searchNB phoneMatchAt s = false ∧
      searchB fnrMatchAt none s = false := by
  unfold contains_obvious_pii at h
  rw [Bool.or_eq_false_iff, Bool.or_eq_false_iff] at h
  exact ⟨h.1.1, h.1.2, h.2⟩

/-- A string consisting of non-PII text blocks separated by sentinel
tokens (`[REDACTED_EMAIL]`, `[REDACTED_FNR]`, `[REDACTED_PHONE]`). -/
inductive SentinelTextForm : Str → Prop
  | txt (t : Str) (ht : contains_obvious_pii t = false) : SentinelTextForm t
  | chunk (t : Str) (ht : contains_obvious_pii t = false) (tok : Str)
      (htok : tok = emailToken ∨ tok = fnrToken ∨ tok = phoneToken)
      (rest : Str) (hr : SentinelTextForm rest) :
      SentinelTextForm (t ++ tok ++ rest)

theorem token_cases {tok : Str}
    (htok : tok = emailToken ∨ tok = fnrToken ∨ tok = phoneToken) :
    ∃ mid, tok = '[' :: (mid ++ [']']) ∧ (∀ c ∈ mid, localChar c = true) ∧
      (∀ c ∈ tok, isDigitChar c = false ∧ ¬c = '+') := by
  rcases htok with rfl | rfl | rfl
  · exact ⟨strOf "REDACTED_EMAIL", by decide, by decide, by decide⟩
  · exact ⟨strOf "REDACTED_FNR", by decide, by decide, by decide⟩
  · exact ⟨strOf "REDACTED_PHONE", by decide, by decide, by decide⟩

/-- A matcher that cannot reach past a `[` finds nothing in `t ++ '[' :: z`
when it finds nothing in `t` and nothing from the `[` onwards. -/
theorem searchNB_false_append {M : Str → Option Nat}
    (hMrestr : ∀ {x w : Str} {n : Nat}, M (x ++ '[' :: w) = some n →
      (M x).isSome = true)
    {t z : Str} (ht : searchNB M t = false)
    (hz : searchNB M ('[' :: z) = false) :
    searchNB M (t ++ '[' :: z) = false := by
  induction t with
  | nil => simpa using hz
  | cons a t1 ih =>
    rw [List.cons_append, searchNB_cons]
    have hhead : M (a :: (t1 ++ '[' :: z)) = none := by
      cases hm : M (a :: (t1 ++ '[' :: z)) with
      | none => rfl
      | some n =>
        exfalso
        have h1 : M ((a :: t1) ++ '[' :: z) = some n := by
          rw [List.cons_append]
          exact hm
        have h2 := hMrestr h1
        rw [matcher_none_of_searchNB_false ht] at h2
        exact absurd h2 (by simp)
    rw [hhead]
    simp only [Option.isSome_none, Bool.false_or]
    exact ih (searchNB_false_tail ht)

theorem sentinelTextForm_no_pii : ∀ {s : Str}, SentinelTextForm s →
    contains_obvious_pii s = false := by
  intro s h
  induction h with
  | txt t ht => exact ht
  | chunk t ht tok htok rest hr ih =>
    rcases token_cases htok with ⟨mid, htk, hmid, hchars⟩
    rcases pii_split ih with ⟨hre, hrp, _⟩
    rcases pii_split ht with ⟨hte, htp, _⟩
    rw [List.append_assoc]
    have hztail : tok ++ rest = '[' :: (mid ++ ']' :: rest) := by
      rw [htk]
      simp
    have hetok : searchNB emailMatchAt (tok ++ rest) = false := by
      rw [hztail, searchNB_cons, emailMatchAt_not_local (by decide) _,
        searchNB_email_skip hmid]
      simpa using hre
    have he : searchNB emailMatchAt (t ++ (tok ++ rest)) = false := by
      rw [hztail] at hetok ⊢
      exact searchNB_false_append (fun hx => emailMatchAt_restrict hx) hte hetok
    have hptok : searchNB phoneMatchAt (tok ++ rest) = false := by
      rw [searchNB_phone_skip hchars]
      exact hrp
    have hp : searchNB phoneMatchAt (t ++ (tok ++ rest)) = false := by
      rw [hztail] at hptok ⊢
      exact searchNB_false_append (fun hx => phoneMatchAt_restrict hx) htp hptok
    have hf : searchB fnrMatchAt none (t ++ (tok ++ rest)) = false := by
      by_contra hx
      have := searchB_fnr_implies_phone _ none (Bool.of_not_eq_false hx)
      rw [hp] at this
      exact absurd this (by simp)
    unfold contains_obvious_pii
    rw [he, hp, hf]
    rfl

/-- Redaction leaves an already-redacted string unchanged. -/
theorem redact_string_id_of_sentinelTextForm {s : Str} (h : SentinelTextForm s) :
    redact_string s = s :=
  redact_string_id_of_no_pii (sentinelTextForm_no_pii h)

/-! ### JSON-like payload trees (`redaction.py` lines 32–67)

Payloads are the JSON-compatible Python values the runner serializes: string,
number, boolean, `None`, list, and (insertion-ordered, string-keyed) dict.
Mutual inductives keep structural recursion and induction simple. -/

mutual
inductive JValue : Type
  | str (s : Str) : JValue
  | num (n : Int) : JValue
  | bool (b : Bool) : JValue
  | null : JValue
  | arr (items : JArr) : JValue
  | obj (entries : JObj) : JValue
  deriving DecidableEq
inductive JArr : Type
  | nil : JArr
  | cons (hd : JValue) (tl : JArr) : JArr
  deriving DecidableEq
inductive JObj : Type
  | nil : JObj
  | cons (k : Str) (v : JValue) (tl : JObj) : JObj
  deriving DecidableEq
end

/-- Decimal digits of a natural number, as Python's `str`/f-string renders
list indices. -/
def natCharsAux : Nat → Nat → List Char
  | 0, _ => []
  | fuel + 1, n =>
    if n < 10 then [Char.ofNat (48 + n)]
    else natCharsAux fuel (n / 10) ++ [Char.ofNat (48 + n % 10)]

def natChars (n : Nat) : List Char := natCharsAux (n + 1) n

mutual
/-- The `_walk` closure of `redact_report_payload`: redact PII-bearing string
leaves (recording the path), recurse structurally through lists (index
paths) and dicts (key paths, key order preserved); other leaves unchanged.
The branch in the source that special-cases sample-bearing keys does the
same thing in both arms, so it has no semantic content. -/
def jwalk : JValue → Str → JValue × List Str
  | JValue.str s, path =>
      if contains_obvious_pii s then (JValue.str (redact_string s), [path])
      else (JValue.str s, [])
  | JValue.num n, _ => (JValue.num n, [])
  | JValue.bool b, _ => (JValue.bool b, [])
  | JValue.null, _ => (JValue.null, [])
  | JValue.arr items, path =>
      let r := jwalkArr items path 0
      (JValue.arr r.1, r.2)
  | JValue.obj entries, path =>
      let r := jwalkObj entries path
      (JValue.obj r.1, r.2)
def jwalkArr : JArr → Str → Nat → JArr × List Str
  | JArr.nil, _, _ => (JArr.nil, [])
  | JArr.cons v tl, path, i =>
      let rv := jwalk v (path ++ '[' :: (natChars i ++ [']']))
      let rt := jwalkArr tl path (i + 1)
      (JArr.cons rv.1 rt.1, rv.2 ++ rt.2)
def jwalkObj : JObj → Str → JObj × List Str
  | JObj.nil, _ => (JObj.nil, [])
  | JObj.cons k v tl, path =>
      let kp := if path.isEmpty then k else path ++ '.' :: k
      let rv := jwalk v kp
      let rt := jwalkObj tl path
      (JObj.cons k rv.1 rt.1, rv.2 ++ rt.2)
end

/-- `redact_report_payload`: walk from the root with path `""`. -/
def redact_report_payload (payload : JValue) : JValue × List Str :=
  jwalk payload []

/-! String leaves (path, value) of a payload in pre-order, as `_walk`
visits them. -/
mutual
def jleaves : JValue → Str → List (Str × Str)
  | JValue.str s, path => [(path, s)]
  | JValue.num _, _ => []
  | JValue.bool _, _ => []
  | JValue.null, _ => []
  | JValue.arr items, path => jleavesArr items path 0
  | JValue.obj entries, path => jleavesObj entries path
def jleavesArr : JArr → Str → Nat → List (Str × Str)
  | JArr.nil, _, _ => []
  | JArr.cons v tl, path, i =>
      jleaves v (path ++ '[' :: (natChars i ++ [']'])) ++ jleavesArr tl path (i + 1)
def jleavesObj : JObj → Str → List (Str × Str)
  | JObj.nil, _ => []
  | JObj.cons k v tl, path =>
      jleaves v (if path.isEmpty then k else path ++ '.' :: k) ++ jleavesObj tl path
end

/-! Shape comparison: same constructors, list lengths, mapping keys and
non-string leaf values; string leaf values unconstrained. -/
mutual
def jSameShape : JValue → JValue → Bool
  | JValue.str _, JValue.str _ => true
  | JValue.num a, JValue.num b => a == b
  | JValue.bool a, JValue.bool b => a == b
  | JValue.null, JValue.null => true
  | JValue.arr a, JValue.arr b => jSameShapeArr a b
  | JValue.obj a, JValue.obj b => jSameShapeObj a b
  | _, _ => false
def jSameShapeArr : JArr → JArr → Bool
  | JArr.nil, JArr.nil => true
  | JArr.cons a ta, JArr.cons b tb => jSameShape a b && jSameShapeArr ta tb
  | _, _ => false
def jSameShapeObj : JObj → JObj → Bool
  | JObj.nil, JObj.nil => true
  | JObj.cons ka va ta, JObj.cons kb vb tb =>
      (ka == kb) && jSameShape va vb && jSameShapeObj ta tb
  | _, _ => false
end

/-! ### The walk is structure-preserving -/

theorem jwalk_str_eq (s p : Str) :
    jwalk (JValue.str s) p =
      if contains_obvious_pii s then (JValue.str (redact_string s), [p])
      else (JValue.str s, []) := rfl

theorem jleaves_str_eq (s p : Str) : jleaves (JValue.str s) p = [(p, s)] := rfl

theorem jwalk_shape_str (s p : Str) :
    jSameShape (JValue.str s) (jwalk (JValue.str s) p).1 = true := by
  rw [jwalk_str_eq]
  by_cases h : contains_obvious_pii s = true
  · rw [if_pos h]
    rfl
  · rw [if_neg h]
    rfl

mutual
theorem jwalk_shape : ∀ (x : JValue) (p : Str), jSameShape x (jwalk x p).1 = true
  | JValue.str s, p => jwalk_shape_str s p
  | JValue.num n, p => by simp [jwalk, jSameShape]
  | JValue.bool b, p => by simp [jwalk, jSameShape]
  | JValue.null, p => by simp [jwalk, jSameShape]
  | JValue.arr items, p => by
    simp only [jwalk, jSameShape]
    exact jwalkArr_shape items p 0
  | JValue.obj entries, p => by
    simp only [jwalk, jSameShape]
    exact jwalkObj_shape entries p
theorem jwalkArr_shape : ∀ (items : JArr) (p : Str) (i : Nat),
    jSameShapeArr items (jwalkArr items p i).1 = true
  | JArr.nil, _, _ => rfl
  | JArr.cons v tl, p, i => by
    simp only [jwalkArr, jSameShapeArr, Bool.and_eq_true]
    exact ⟨jwalk_shape v _, jwalkArr_shape tl p (i + 1)⟩
theorem jwalkObj_shape : ∀ (entries : JObj) (p : Str),
    jSameShapeObj entries (jwalkObj entries p).1 = true
  | JObj.nil, _ => rfl
  | JObj.cons k v tl, p => by
    simp only [jwalkObj, jSameShapeObj, Bool.and_eq_true]
    exact ⟨⟨by simp, jwalk_shape v _⟩, jwalkObj_shape tl p⟩
end

/-! ### The recorded paths are exactly the PII leaves, in pre-order -/

theorem jwalk_paths_str (s p : Str) :
    (jwalk (JValue.str s) p).2 =
      ((jleaves (JValue.str s) p).filter
        (fun q => contains_obvious_pii q.2)).map Prod.fst := by
  rw [jwalk_str_eq, jleaves_str_eq]
  by_cases h : contains_obvious_pii s = true
  · rw [if_pos h]
    simp [h]
  · rw [if_neg h]
    simp [Bool.eq_false_iff.mpr h]

mutual
theorem jwalk_paths : ∀ (x : JValue) (p : Str),
    (jwalk x p).2 =
      ((jleaves x p).filter (fun q => contains_obvious_pii q.2)).map Prod.fst
  | JValue.str s, p => jwalk_paths_str s p
  | JValue.num n, p => by simp [jwalk, jleaves]
  | JValue.bool b, p => by simp [jwalk, jleaves]
  | JValue.null, p => by simp [jwalk, jleaves]
  | JValue.arr items, p => by
    simp only [jwalk, jleaves]
    exact jwalkArr_paths items p 0
  | JValue.obj entries, p => by
    simp only [jwalk, jleaves]
    exact jwalkObj_paths entries p
theorem jwalkArr_paths : ∀ (items : JArr) (p : Str) (i : Nat),
    (jwalkArr items p i).2 =
      ((jleavesArr items p i).filter (fun q => contains_obvious_pii q.2)).map Prod.fst
  | JArr.nil, _, _ => rfl
  | JArr.cons v tl, p, i => by
    simp only [jwalkArr, jleavesArr, List.filter_append, List.map_append]
    rw [jwalk_paths v _, jwalkArr_paths tl p (i + 1)]
theorem jwalkObj_paths : ∀ (entries : JObj) (p : Str),
    (jwalkObj entries p).2 =
      ((jleavesObj entries p).filter (fun q => contains_obvious_pii q.2)).map Prod.fst
  | JObj.nil, _ => rfl
  | JObj.cons k v tl, p => by
    simp only [jwalkObj, jleavesObj, List.filter_append, List.map_append]
    rw [jwalk_paths v _, jwalkObj_paths tl p]
end

/-! ### Per-leaf transformation of the walk -/

theorem jwalk_leaves_str (s p : Str) :
    jleaves (jwalk (JValue.str s) p).1 p =
      (jleaves (JValue.str s) p).map (fun q =>
        (q.1, if contains_obvious_pii q.2 then redact_string q.2 else q.2)) := by
  rw [jwalk_str_eq, jleaves_str_eq]
  by_cases h : contains_obvious_pii s = true
  · rw [if_pos h]
    rw [jleaves_str_eq]
    simp [h]
  · rw [if_neg h]
    rw [jleaves_str_eq]
    simp [Bool.eq_false_iff.mpr h]

mutual
theorem jwalk_leaves : ∀ (x : JValue) (p : Str),
    jleaves (jwalk x p).1 p =
      (jleaves x p).map (fun q =>
        (q.1, if contains_obvious_pii q.2 then redact_string q.2 else q.2))
  | JValue.str s, p => jwalk_leaves_str s p
  | JValue.num n, p => by simp [jwalk, jleaves]
  | JValue.bool b, p => by simp [jwalk, jleaves]
  | JValue.null, p => by simp [jwalk, jleaves]
  | JValue.arr items, p => by
    simp only [jwalk, jleaves]
    exact jwalkArr_leaves items p 0
  | JValue.obj entries, p => by
    simp only [jwalk, jleaves]
    exact jwalkObj_leaves entries p
theorem jwalkArr_leaves : ∀ (items : JArr) (p : Str) (i : Nat),
    jleavesArr (jwalkArr items p i).1 p i =
      (jleavesArr items p i).map (fun q =>
        (q.1, if contains_obvious_pii q.2 then redact_string q.2 else q.2))
  | JArr.nil, _, _ => rfl
  | JArr.cons v tl, p, i => by
    simp only [jwalkArr, jleavesArr, List.map_append]
    rw [jwalk_leaves v _, jwalkArr_leaves tl p (i + 1)]
theorem jwalkObj_leaves : ∀ (entries : JObj) (p : Str),
    jleavesObj (jwalkObj entries p).1 p =
      (jleavesObj entries p).map (fun q =>
        (q.1, if contains_obvious_pii q.2 then redact_string q.2 else q.2))
  | JObj.nil, _ => rfl
  | JObj.cons k v tl, p => by
    simp only [jwalkObj, jleavesObj, List.map_append]
    rw [jwalk_leaves v _, jwalkObj_leaves tl p]
end

example :
    redact_report_payload (JValue.obj (JObj.cons (strOf "results")
      (JValue.arr (JArr.cons (JValue.obj (JObj.cons (strOf "message")
        (JValue.str (strOf "contact a@b.com now")) JObj.nil)) JArr.nil))
      JObj.nil)) =
    (JValue.obj (JObj.cons (strOf "results")
      (JValue.arr (JArr.cons (JValue.obj (JObj.cons (strOf "message")
        (JValue.str (strOf "contact [REDACTED_EMAIL] now")) JObj.nil)) JArr.nil))
      JObj.nil), [strOf "results[0].message"]) := by decide

/-! ### Spec model (`spec.py`)

`load_and_validate_spec` is modelled from the parsed-YAML value on (the
filesystem read and the YAML parser are external collaborators); `SpecError`
becomes the error branch of `Except Str` carrying the message text (without
the file-path prefix). -/

def jObjLookup : JObj → Str → Option JValue
  | JObj.nil, _ => none
  | JObj.cons k v tl, key => if k = key then some v else jObjLookup tl key

/-- Python truthiness for the modelled values. -/
def jTruthy : JValue → Bool
  | JValue.str s => !s.isEmpty
  | JValue.num n => decide (n ≠ 0)
  | JValue.bool b => b
  | JValue.null => false
  | JValue.arr JArr.nil => false
  | JValue.arr _ => true
  | JValue.obj JObj.nil => false
  | JValue.obj _ => true

def intChars (n : Int) : Str :=
  if n < 0 then '-' :: natChars n.natAbs else natChars n.toNat

def openCurly : Char := Char.ofNat 123

def closeCurly : Char := Char.ofNat 125

mutual
/-- Python `repr()` of the modelled values (string escaping inside `repr`
is not modelled; no claim inspects it — only scalar `str()` is ever
observable through `run.id`/`output_path`). -/
def pyRepr : JValue → Str
  | JValue.str s => '\'' :: (s ++ ['\''])
  | JValue.num n => intChars n
  | JValue.bool b => if b then strOf "True" else strOf "False"
  | JValue.null => strOf "None"
  | JValue.arr items => '[' :: (pyReprArr items ++ [']'])
  | JValue.obj entries => openCurly :: (pyReprObj entries ++ [closeCurly])
def pyReprArr : JArr → Str
  | JArr.nil => []
  | JArr.cons v JArr.nil => pyRepr v
  | JArr.cons v tl => pyRepr v ++ strOf ", " ++ pyReprArr tl
def pyReprObj : JObj → Str
  | JObj.nil => []
  | JObj.cons k v JObj.nil => ('\'' :: (k ++ ['\''])) ++ strOf ": " ++ pyRepr v
  | JObj.cons k v tl =>
      ('\'' :: (k ++ ['\''])) ++ strOf ": " ++ pyRepr v ++ strOf ", " ++ pyReprObj tl
end

/-- Python `str()`: identity on strings, `repr` otherwise. -/
def pyStr : JValue → Str
  | JValue.str s => s
  | v => pyRepr v

/-- Python `str.strip()` (whitespace at both ends). -/
def pyStrip (s : Str) : Str :=
  ((s.dropWhile Char.isWhitespace).reverse.dropWhile Char.isWhitespace).reverse

/-- Python `str.lower()` (ASCII fragment). -/
def pyLower (s : Str) : Str := s.map Char.toLower

def ALLOWED_STATUSES : List Str :=
  [strOf "ok", strOf "warning", strOf "error", strOf "fail"]

instance instDecEqExcept {ε α : Type} [DecidableEq ε] [DecidableEq α] :
    DecidableEq (Except ε α) := fun a b =>
  match a, b with
  | Except.ok x, Except.ok y =>
    decidable_of_iff (x = y) ⟨fun h => by rw [h], fun h => by injection h⟩
  | Except.error x, Except.error y =>
    decidable_of_iff (x = y) ⟨fun h => by rw [h], fun h => by injection h⟩
  | Except.ok _, Except.error _ => isFalse (fun h => Except.noConfusion h)
  | Except.error _, Except.ok _ => isFalse (fun h => Except.noConfusion h)

structure RunSpec where
  id : Str
  output_path : Str
  fail_on : List Str
  continue_on_error : Bool
  allow_pii_output : Bool
  deriving DecidableEq

structure TableSpec where
  name : Str
  modules : List Str
  config : JObj
  deriving DecidableEq

structure EnterpriseSpec where
  run : RunSpec
  tables : List TableSpec
  deriving DecidableEq

/-- `[s.strip().lower() for s in xs if s.strip()]` -/
def normStatusList (xs : List Str) : List Str :=
  (xs.filter (fun t => !(pyStrip t).isEmpty)).map (fun t => pyLower (pyStrip t))

def jArrToList : JArr → List JValue
  | JArr.nil => []
  | JArr.cons v tl => v :: jArrToList tl

def allStrings (items : List JValue) : Option (List Str) :=
  items.foldr (fun v acc =>
    match v, acc with
    | JValue.str s, some rest => some (s :: rest)
    | _, _ => none) (some [])

/-- `_parse_run` (`spec.py` lines 58–85). -/
def parse_run (run : JValue) : Except Str RunSpec :=
  match run with
  | JValue.obj entries =>
    let idv := (jObjLookup entries (strOf "id")).getD JValue.null
    let run_id := if jTruthy idv then idv else JValue.str (strOf "dcheck-run")
    let o1 := (jObjLookup entries (strOf "output_path")).getD JValue.null
    let o2 := if jTruthy o1 then o1 else
      (jObjLookup entries (strOf "output")).getD JValue.null
    let o3 := if jTruthy o2 then o2 else JValue.str (strOf "./out")
    let failOnV := (jObjLookup entries (strOf "fail_on")).getD
      (JValue.arr (JArr.cons (JValue.str (strOf "error")) JArr.nil))
    let failOnL : Except Str (List Str) :=
      match failOnV with
      | JValue.str s => Except.ok (normStatusList (List.splitOn ',' s))
      | JValue.arr items =>
        match allStrings (jArrToList items) with
        | some l => Except.ok l
        | none => Except.error
            (strOf "run.fail_on must be a list of strings or comma-separated string")
      | _ => Except.error
          (strOf "run.fail_on must be a list of strings or comma-separated string")
    match failOnL with
    | Except.error e => Except.error e
    | Except.ok l =>
      let fail_on_norm := normStatusList l
      if (fail_on_norm.filter (fun s => decide (s ∉ ALLOWED_STATUSES))).isEmpty then
        Except.ok
          { id := pyStr run_id
            output_path := pyStr o3
            fail_on := if fail_on_norm.isEmpty then [strOf "error"] else fail_on_norm
            continue_on_error :=
              match jObjLookup entries (strOf "continue_on_error") with
              | some v => jTruthy v
              | none => true
            allow_pii_output :=
              match jObjLookup entries (strOf "allow_pii_output") with
              | some v => jTruthy v
              | none => false }
      else Except.error (strOf "unknown statuses in run.fail_on")
  | _ => Except.error (strOf "run must be an object")

/-- `[s.strip() for s in xs if s.strip()]` (modules are not lower-cased). -/
def normModuleList (xs : List Str) : List Str :=
  (xs.filter (fun t => !(pyStrip t).isEmpty)).map pyStrip

/-- One entry of `_parse_tables` (`spec.py` lines 95–114). -/
def parse_table_entry (t : JValue) : Except Str TableSpec :=
  match t with
  | JValue.obj entries =>
    match jObjLookup entries (strOf "name") with
    | some (JValue.str s) =>
      if s.isEmpty then Except.error (strOf "tables name is required and must be a string")
      else
        let modulesV := (jObjLookup entries (strOf "modules")).getD
          (JValue.arr (JArr.cons (JValue.str (strOf "core_quality")) JArr.nil))
        let modulesL : Except Str (List Str) :=
          match modulesV with
          | JValue.str ms => Except.ok (normModuleList (List.splitOn ',' ms))
          | JValue.arr items =>
            match allStrings (jArrToList items) with
            | some l => Except.ok l
            | none => Except.error
                (strOf "tables modules must be list of strings or comma-separated string")
          | _ => Except.error
              (strOf "tables modules must be list of strings or comma-separated string")
        match modulesL with
        | Except.error e => Except.error e
        | Except.ok ml =>
          match (jObjLookup entries (strOf "config")).getD JValue.null with
          | JValue.null => Except.ok ⟨s, normModuleList ml, JObj.nil⟩
          | JValue.obj cfg => Except.ok ⟨s, normModuleList ml, cfg⟩
          | _ => Except.error (strOf "tables config must be an object")
    | _ => Except.error (strOf "tables name is required and must be a string")
  | _ => Except.error (strOf "tables entry must be an object")

/-- `_parse_tables` (`spec.py` lines 88–115); the argument is
`data.get("tables", None)` and a YAML `null` is indistinguishable from a
missing key for `dict.get` only when absent, so both cases are threaded. -/
def parse_tables : Option JValue → Except Str (List TableSpec)
  | none => Except.error (strOf "missing required tables list")
  | some JValue.null => Except.error (strOf "missing required tables list")
  | some (JValue.arr items) =>
    (jArrToList items).foldr (fun t acc =>
      match parse_table_entry t, acc with
      | Except.ok ts, Except.ok rest => Except.ok (ts :: rest)
      | Except.error e, _ => Except.error e
      | _, Except.error e => Except.error e) (Except.ok [])
  | some _ => Except.error (strOf "tables must be a list")

/-- `load_and_validate_spec` (`spec.py` lines 39–47) on the parsed YAML
value: root must be a mapping, `run` is parsed first, then `tables`, and an
empty table list is rejected. -/
def load_and_validate_spec (data : JValue) : Except Str EnterpriseSpec :=
  match data with
  | JValue.obj entries =>
    match parse_run ((jObjLookup entries (strOf "run")).getD (JValue.obj JObj.nil)) with
    | Except.error e => Except.error e
    | Except.ok run =>
      match parse_tables (jObjLookup entries (strOf "tables")) with
      | Except.error e => Except.error e
      | Except.ok tables =>
        if tables.isEmpty then
          Except.error (strOf "tables must contain at least 1 table entry")
        else Except.ok { run := run, tables := tables }
  | _ => Except.error (strOf "YAML root must be a mapping/object")

/-! ### Planner (`planner.py`) -/

structure TableJob where
  name : Str
  modules : List Str
  config : JObj
  deriving DecidableEq

/-- `build_plan`: a 1:1 projection of the spec's tables, in order. -/
def build_plan (spec : EnterpriseSpec) : List TableJob :=
  spec.tables.map (fun t => { name := t.name, modules := t.modules, config := t.config })

/-! Sanity examples mirroring `tests/test_spec_validation.py`. -/

example :
    load_and_validate_spec (JValue.obj (JObj.cons (strOf "run")
      (JValue.obj (JObj.cons (strOf "id") (JValue.str (strOf "x"))
        (JObj.cons (strOf "output_path") (JValue.str (strOf "./out")) JObj.nil)))
      JObj.nil)) =
    Except.error (strOf "missing required tables list") := by decide

example :
    load_and_validate_spec (JValue.obj (JObj.cons (strOf "run")
        (JValue.obj (JObj.cons (strOf "id") (JValue.str (strOf "x"))
          (JObj.cons (strOf "output_path") (JValue.str (strOf "./out")) JObj.nil)))
        (JObj.cons (strOf "tables") (JValue.arr (JArr.cons
          (JValue.obj (JObj.cons (strOf "name") (JValue.str (strOf "cat.sch.tbl"))
            JObj.nil)) JArr.nil)) JObj.nil))) =
      Except.ok
        ⟨⟨strOf "x", strOf "./out", [strOf "error"], true, false⟩,
          [⟨strOf "cat.sch.tbl", [strOf "core_quality"], JObj.nil⟩]⟩ := by
  decide

/-! ### Runner model (`runner.py`)

The external engine `dc` is an oracle `Nat → TableJob → EngineResult`
(invocation index and job); wall-clock timestamps (`ts_utc`,
`duration_sec`, `started_utc`/`finished_utc`) are not expressible in a pure
embedding and are omitted from events and results; `generated_utc` is
threaded as an opaque parameter.  Filesystem writes are recorded as a list
of (relative path, payload) pairs.  A `none` from a modelled step stands
for a raised Python exception inside the per-table `try` block. -/

structure RuleResult where
  name : Str
  status : Str
  message : Str
  metrics : JObj
  deriving DecidableEq

structure Report where
  rows : Option Int
  columns : Option Int
  column_names : Option (List Str)
  results : List RuleResult
  deriving DecidableEq

def SCHEMA_VERSION : Str := strOf "dcheck-enterprise-run-report/v1"

/-- `_status_counts`: count the four known status tokens (lower-cased)
over a result list. -/
def status_counts (results : List RuleResult) : List (Str × Nat) :=
  [ (strOf "ok", (results.filter (fun r => pyLower r.status = strOf "ok")).length),
    (strOf "warning",
      (results.filter (fun r => pyLower r.status = strOf "warning")).length),
    (strOf "error", (results.filter (fun r => pyLower r.status = strOf "error")).length),
    (strOf "fail", (results.filter (fun r => pyLower r.status = strOf "fail")).length) ]

/-- `_should_fail`: some status in the (lower-cased) fail_on set has a
positive count. -/
def should_fail (counts : List (Str × Nat)) (fail_on : List Str) : Bool :=
  counts.any (fun sc => (fail_on.map pyLower).contains sc.1 && decide (0 < sc.2))

def jArrOfList : List JValue → JArr
  | [] => JArr.nil
  | v :: t => JArr.cons v (jArrOfList t)

def jObjOfList : List (Str × JValue) → JObj
  | [] => JObj.nil
  | (k, v) :: t => JObj.cons k v (jObjOfList t)

def jOfOptInt : Option Int → JValue
  | some n => JValue.num n
  | none => JValue.null

def countsObj (counts : List (Str × Nat)) : JObj :=
  jObjOfList (counts.map (fun p => (p.1, JValue.num (p.2 : Int))))

/-- One entry of the serialized `results` list (`metrics or {}` is the
identity here because metrics is already a mapping). -/
def ruleResultJson (r : RuleResult) : JValue :=
  JValue.obj (jObjOfList
    [ (strOf "name", JValue.str r.name),
      (strOf "status", JValue.str r.status),
      (strOf "message", JValue.str r.message),
      (strOf "metrics", JValue.obj r.metrics) ])

/-- `_serialize_report` (`runner.py` lines 180–214). -/
def serialize_report (report : Report) (table_name : Str) (modules : List Str)
    (config : JObj) (audit : JValue) (generated_utc : Str) : JObj :=
  jObjOfList
    [ (strOf "schema_version", JValue.str SCHEMA_VERSION),
      (strOf "table", JValue.obj (jObjOfList [(strOf "name", JValue.str table_name)])),
      (strOf "execution", JValue.obj (jObjOfList
        [ (strOf "modules", JValue.arr (jArrOfList (modules.map JValue.str))),
          (strOf "config", JValue.obj config) ])),
      (strOf "dataset", JValue.obj (jObjOfList
        [ (strOf "rows", jOfOptInt report.rows),
          (strOf "columns", jOfOptInt report.columns),
          (strOf "column_names",
            match report.column_names with
            | some l =>
                if l.isEmpty then JValue.null
                else JValue.arr (jArrOfList (l.map JValue.str))
            | none => JValue.null) ])),
      (strOf "summary", JValue.obj (jObjOfList
        [(strOf "status_counts", JValue.obj (countsObj (status_counts report.results)))])),
      (strOf "results", JValue.arr (jArrOfList (report.results.map ruleResultJson))),
      (strOf "audit", audit),
      (strOf "generated_utc", JValue.str generated_utc) ]

/-- `_safe_table_filename`: the three `replace` calls are independent (no
replacement output contains a later pattern), so one pass is equivalent. -/
def safe_table_filename (table_name : Str) : Str :=
  (table_name.flatMap (fun c =>
    if c = '/' then ['_']
    else if c = ':' then ['_']
    else if c = '.' then ['_', '_']
    else [c])) ++ strOf ".json"

def objAppend : JObj → Str → JValue → JObj
  | JObj.nil, k, v => JObj.cons k v JObj.nil
  | JObj.cons k0 v0 tl, k, v => JObj.cons k0 v0 (objAppend tl k v)

/-- `dict.setdefault`: append at the end when the key is absent. -/
def objSetDefault (entries : JObj) (k : Str) (d : JValue) : JObj :=
  if (jObjLookup entries k).isSome then entries else objAppend entries k d

/-- One key of `dict.update`: replace in place, else append. -/
def objUpdateKey : JObj → Str → JValue → JObj
  | JObj.nil, k, v => JObj.cons k v JObj.nil
  | JObj.cons k0 v0 tl, k, v =>
      if k0 = k then JObj.cons k0 v tl else JObj.cons k0 v0 (objUpdateKey tl k v)

/-- `payload["redaction"].update({...})`; `none` models the
`AttributeError` Python raises when the pre-existing value is not a dict. -/
def redactionBlockInner (inner : JValue) (events : List Str) : Option JValue :=
  match inner with
  | JValue.obj e => some (JValue.obj
      (objUpdateKey (objUpdateKey (objUpdateKey e
        (strOf "applied") (JValue.bool true))
        (strOf "reason") (JValue.str (strOf "allow_pii_output=false")))
        (strOf "paths") (JValue.arr (jArrOfList ((events.take 200).map JValue.str)))))
  | _ => none

/-- `runner.py` lines 113–126: the persisted per-table payload, together
with the redaction events (empty when `allow_pii_output` is set). -/
def persist_table_payload (allow_pii_output : Bool) (payload : JObj) :
    Option (JValue × List Str) :=
  if allow_pii_output then some (JValue.obj payload, [])
  else
    let r := redact_report_payload (JValue.obj payload)
    match r.1 with
    | JValue.obj e =>
        if r.2.isEmpty then some (JValue.obj e, r.2)
        else
          let e1 := objSetDefault e (strOf "redaction") (JValue.obj JObj.nil)
          match jObjLookup e1 (strOf "redaction") with
          | some inner =>
              (redactionBlockInner inner r.2).map (fun inner2 =>
                (JValue.obj (objUpdateKey e1 (strOf "redaction") inner2), r.2))
          | none => none
    | _ => none

/-- `counts = payload.get("summary", {}).get("status_counts") or
_status_counts(payload.get("results", []))` read back from the persisted
payload; `none` models a raised `TypeError`/`AttributeError` on shapes the
runner itself never writes. -/
def jCountsOfObj : JObj → Option (List (Str × Nat))
  | JObj.nil => some []
  | JObj.cons k v tl =>
    match v, jCountsOfObj tl with
    | JValue.num n, some rest => some ((k, n.toNat) :: rest)
    | _, _ => none

def statusKeyOf (r : JValue) : Option Str :=
  match r with
  | JValue.obj e =>
      some (pyLower (pyStr ((jObjLookup e (strOf "status")).getD (JValue.str []))))
  | _ => none

def status_counts_json (items : List JValue) : Option (List (Str × Nat)) :=
  match items.mapM statusKeyOf with
  | some ss => some
      [ (strOf "ok", (ss.filter (fun s => s = strOf "ok")).length),
        (strOf "warning", (ss.filter (fun s => s = strOf "warning")).length),
        (strOf "error", (ss.filter (fun s => s = strOf "error")).length),
        (strOf "fail", (ss.filter (fun s => s = strOf "fail")).length) ]
  | none => none

def payloadCountsFallback (payload : JObj) : Option (List (Str × Nat)) :=
  match (jObjLookup payload (strOf "results")).getD (JValue.arr JArr.nil) with
  | JValue.arr items => status_counts_json (jArrToList items)
  | _ => none

def payloadCounts (payload : JValue) : Option (List (Str × Nat)) :=
  match payload with
  | JValue.obj e =>
    match (jObjLookup e (strOf "summary")).getD (JValue.obj JObj.nil) with
    | JValue.obj se =>
      match (jObjLookup se (strOf "status_counts")).getD JValue.null with
      | JValue.obj JObj.nil => payloadCountsFallback e
      | JValue.obj c => jCountsOfObj c
      | JValue.null => payloadCountsFallback e
      | v => if jTruthy v then none else payloadCountsFallback e
    | _ => none
  | _ => none

inductive EngineResult where
  | ok (report : Report)
  | exn (msg : Str)
  deriving DecidableEq

inductive StateEvent where
  | skipped (table : Str)
  | started (table : Str) (index total : Nat)
  | completed (table : Str) (failed : Bool)
  | error (table : Str) (msg : Str)
  deriving DecidableEq

structure TableResult where
  table : Str
  output_file : Option Str
  counts : List (Str × Nat)
  failed : Bool
  redaction_applied : Option Bool
  exception : Option Str
  deriving DecidableEq

structure LoopState where
  events : List StateEvent
  tables_completed : Nat
  tables_failed : Nat
  tables_skipped : Nat
  table_results : List TableResult
  writes : List (Str × JValue)
  calls : List (Nat × TableJob)
  overall_failed : Bool
  processed : Nat
  deriving DecidableEq

def emptyLoopState : LoopState := ⟨[], 0, 0, 0, [], [], [], false, 0⟩

def combineLoopState (a b : LoopState) : LoopState :=
  ⟨a.events ++ b.events, a.tables_completed + b.tables_completed,
    a.tables_failed + b.tables_failed, a.tables_skipped + b.tables_skipped,
    a.table_results ++ b.table_results, a.writes ++ b.writes, a.calls ++ b.calls,
    a.overall_failed || b.overall_failed, a.processed + b.processed⟩

/-- The contribution of the exception branch (`runner.py` lines 151–169). -/
def exnContribution (continue_on_error : Bool) (idx : Nat) (total : Nat)
    (job : TableJob) (msg : Str) : LoopState × Bool :=
  (⟨[StateEvent.started job.name idx total, StateEvent.error job.name msg],
    0, 1, 0,
    [⟨job.name, none, [(strOf "error", 1)], true, none, some msg⟩],
    [], [(idx, job)], true, 1⟩,
   !continue_on_error)

/-- One non-skipped job of the run loop (`runner.py` lines 101–169):
started event, engine call, serialize → persist → write, counts and
pass/fail policy, completed/error event; the returned flag says whether
the loop breaks. -/
def runJob (spec : EnterpriseSpec) (audit : JValue) (genUtc : Str)
    (idx total : Nat) (job : TableJob) (eres : EngineResult) : LoopState × Bool :=
  match eres with
  | EngineResult.exn msg => exnContribution spec.run.continue_on_error idx total job msg
  | EngineResult.ok report =>
    let payload := serialize_report report job.name job.modules job.config audit genUtc
    match persist_table_payload spec.run.allow_pii_output payload with
    | none => exnContribution spec.run.continue_on_error idx total job
        (strOf "AttributeError: update")
    | some (outPayload, events) =>
      match payloadCounts outPayload with
      | none => exnContribution spec.run.continue_on_error idx total job
          (strOf "TypeError: counts")
      | some counts =>
        let failed := should_fail counts spec.run.fail_on
        let fname := strOf "tables/" ++ safe_table_filename job.name
        (⟨[StateEvent.started job.name idx total, StateEvent.completed job.name failed],
          1, if failed then 1 else 0, 0,
          [⟨job.name, some fname, counts, failed, some (!events.isEmpty), none⟩],
          [(fname, outPayload)], [(idx, job)], failed, 1⟩,
         failed && !spec.run.continue_on_error)

/-- The loop over planned jobs, resuming past the completed set. -/
def runJobs (spec : EnterpriseSpec) (audit : JValue) (genUtc : Str)
    (engine : Nat → TableJob → EngineResult) (comp : List Str) (total : Nat) :
    Nat → List TableJob → LoopState
  | _, [] => emptyLoopState
  | idx, job :: rest =>
    if job.name ∈ comp then
      combineLoopState ⟨[StateEvent.skipped job.name], 0, 0, 1, [], [], [], false, 1⟩
        (runJobs spec audit genUtc engine comp total (idx + 1) rest)
    else
      let r := runJob spec audit genUtc idx total job (engine idx job)
      if r.2 then r.1
      else combineLoopState r.1 (runJobs spec audit genUtc engine comp total (idx + 1) rest)

structure StateRec where
  table : Str
  status : Str
  deriving DecidableEq

/-- The resume set: table names of records with status `completed`
(`runner.py` lines 61–69). -/
def completed_set (log : List StateRec) : List Str :=
  (log.filter (fun r => r.status = strOf "completed")).map StateRec.table

def planned_jobs (spec : EnterpriseSpec) (limit : Option Nat) : List TableJob :=
  match limit with
  | some n => (build_plan spec).take n
  | none => build_plan spec

structure RunOutcome where
  state : LoopState
  exit_code : Nat
  tables_total : Nat
  deriving DecidableEq

/-- `run_from_spec` (`runner.py` lines 50–177): plan, limit, resume set,
loop, exit code 1 iff any table failed. -/
def run_from_spec (spec : EnterpriseSpec) (audit : JValue) (genUtc : Str)
    (engine : Nat → TableJob → EngineResult) (resume : Bool) (limit : Option Nat)
    (log : List StateRec) : RunOutcome :=
  let jobs := planned_jobs spec limit
  let comp := if resume then completed_set log else []
  let st := runJobs spec audit genUtc engine comp jobs.length 1 jobs
  ⟨st, if st.overall_failed then 1 else 0, jobs.length⟩

/-! Sanity examples mirroring the worked example of the spec: `fail_on:
[error]` with counts `ok:3, warning:1` passes with exit 0, while
`ok:3, error:1` fails with exit 1. -/

def mkReport (statuses : List Str) : Report :=
  ⟨none, none, none, statuses.map (fun s => ⟨strOf "r", s, strOf "", JObj.nil⟩)⟩

def demoSpec : EnterpriseSpec :=
  ⟨⟨strOf "run", strOf "./out", [strOf "error"], true, false⟩,
    [⟨strOf "t1", [strOf "core_quality"], JObj.nil⟩]⟩

example :
    (run_from_spec demoSpec JValue.null (strOf "ts")
      (fun _ _ => EngineResult.ok
        (mkReport [strOf "ok", strOf "ok", strOf "ok", strOf "warning"]))
      false none []).exit_code = 0 := by decide

example :
    (run_from_spec demoSpec JValue.null (strOf "ts")
      (fun _ _ => EngineResult.ok
        (mkReport [strOf "ok", strOf "ok", strOf "ok", strOf "error"]))
      false none []).exit_code = 1 := by decide

/-! ## Claim theorems -/

/-- C5: `redact_report_payload` is structure-preserving — the returned
payload has the same shape as the input (same constructors, list lengths,
mapping keys in order, identical non-string leaves); only string leaf
values may differ. -/
theorem claim_C5 (payload : JValue) :
    jSameShape payload (redact_report_payload payload).1 = true :=
  jwalk_shape payload []

/-- C4: for every string leaf of the payload that contains an obvious-PII
substring (email-like, 11-digit, or loose-phone-like — i.e.
`contains_obvious_pii` holds), the walked payload carries
`redact_string` of that leaf at the same path, no PII-bearing string (in
particular the matched substring) occurs verbatim in that redacted leaf,
the leaf's path is recorded, and the recorded path list is exactly the
pre-order list of PII-leaf paths. -/
theorem claim_C4 (payload : JValue) (p s : Str)
    (hleaf : (p, s) ∈ jleaves payload [])
    (hpii : contains_obvious_pii s = true) :
    (p, redact_string s) ∈ jleaves (redact_report_payload payload).1 [] ∧
    (∀ u, contains_obvious_pii u = true →
      ¬∃ a b, redact_string s = a ++ u ++ b) ∧
    p ∈ (redact_report_payload payload).2 ∧
    (redact_report_payload payload).2 =
      ((jleaves payload []).filter (fun q => contains_obvious_pii q.2)).map
        Prod.fst := by
  refine ⟨?_, fun u hu => redact_string_no_pii_infix s u hu, ?_, jwalk_paths payload []⟩
  · show (p, redact_string s) ∈ jleaves (jwalk payload []).1 []
    rw [jwalk_leaves]
    refine List.mem_map.mpr ⟨(p, s), hleaf, ?_⟩
    simp [hpii]
  · show p ∈ (jwalk payload []).2
    rw [jwalk_paths]
    exact List.mem_map.mpr ⟨(p, s), List.mem_filter.mpr ⟨hleaf, by simp [hpii]⟩, rfl⟩

def c4Payload : JValue :=
  JValue.obj (JObj.cons (strOf "msg") (JValue.str (strOf "mail a@b.cc now")) JObj.nil)

theorem claim_C4_witness :
    ((strOf "msg", strOf "mail a@b.cc now") ∈ jleaves c4Payload [] ∧
      contains_obvious_pii (strOf "mail a@b.cc now") = true) ∧
    ((strOf "msg", redact_string (strOf "mail a@b.cc now")) ∈
        jleaves (redact_report_payload c4Payload).1 [] ∧
      (∀ u, contains_obvious_pii u = true →
        ¬∃ a b, redact_string (strOf "mail a@b.cc now") = a ++ u ++ b) ∧
      strOf "msg" ∈ (redact_report_payload c4Payload).2 ∧
      (redact_report_payload c4Payload).2 =
        ((jleaves c4Payload []).filter
          (fun q => contains_obvious_pii q.2)).map Prod.fst) :=
  ⟨⟨by decide, by decide⟩, claim_C4 c4Payload _ _ (by decide) (by decide)⟩

/-- C6: on a string made only of sentinel tokens and non-PII text,
redaction is the identity: the string is unchanged and a string leaf with
that value contributes no entry to the path list. -/
theorem claim_C6 {s : Str} (h : SentinelTextForm s) :
    redact_string s = s ∧ contains_obvious_pii s = false ∧
    ∀ path, jwalk (JValue.str s) path = (JValue.str s, []) := by
  have hfree := sentinelTextForm_no_pii h
  refine ⟨redact_string_id_of_no_pii hfree, hfree, fun path => ?_⟩
  rw [jwalk_str_eq, if_neg (by simp [hfree])]

theorem claim_C6_witness :
    SentinelTextForm (strOf "user " ++ emailToken ++ strOf ", id 123") ∧
    (redact_string (strOf "user " ++ emailToken ++ strOf ", id 123") =
        strOf "user " ++ emailToken ++ strOf ", id 123" ∧
      contains_obvious_pii (strOf "user " ++ emailToken ++ strOf ", id 123") = false ∧
      ∀ path, jwalk (JValue.str (strOf "user " ++ emailToken ++ strOf ", id 123")) path =
        (JValue.str (strOf "user " ++ emailToken ++ strOf ", id 123"), [])) := by
  have hform : SentinelTextForm (strOf "user " ++ emailToken ++ strOf ", id 123") :=
    SentinelTextForm.chunk (strOf "user ") (by decide) emailToken (Or.inl rfl)
      (strOf ", id 123") (SentinelTextForm.txt _ (by decide))
  exact ⟨hform, claim_C6 hform⟩

def c9Spec : EnterpriseSpec :=
  ⟨⟨strOf "r", strOf "./out", [strOf "error"], true, false⟩,
    [⟨strOf "a.b", [strOf "m"], JObj.nil⟩, ⟨strOf "a__b", [strOf "m"], JObj.nil⟩]⟩

/-- C9: `_safe_table_filename` is not injective — the distinct table names
`a.b` and `a__b` map to the same file name, and a run over both writes the
same per-table path twice (the second `write_json` overwrites the first on
a real filesystem). -/
theorem claim_C9 :
    ¬strOf "a.b" = strOf "a__b" ∧
    safe_table_filename (strOf "a.b") = safe_table_filename (strOf "a__b") ∧
    (run_from_spec c9Spec JValue.null (strOf "ts")
      (fun _ _ => EngineResult.ok (mkReport [])) false none []).state.writes.map
        Prod.fst =
      [strOf "tables/a__b.json", strOf "tables/a__b.json"] := by decide

/-! ### Per-job facts used by the loop claims -/

/-- Whether a job's outcome counts as failed: an engine exception, a raised
serialization/persist step, or a `fail_on` hit in the status counts. -/
def engine_outcome_failed (spec : EnterpriseSpec) (audit : JValue) (genUtc : Str)
    (job : TableJob) (r : EngineResult) : Bool :=
  match r with
  | EngineResult.exn _ => true
  | EngineResult.ok report =>
    match persist_table_payload spec.run.allow_pii_output
        (serialize_report report job.name job.modules job.config audit genUtc) with
    | none => true
    | some pr =>
      match payloadCounts pr.1 with
      | none => true
      | some counts => should_fail counts spec.run.fail_on

theorem runJob_facts (spec : EnterpriseSpec) (audit : JValue) (genUtc : Str)
    (idx total : Nat) (job : TableJob) (r : EngineResult) :
    (runJob spec audit genUtc idx total job r).1.overall_failed =
        engine_outcome_failed spec audit genUtc job r ∧
    (runJob spec audit genUtc idx total job r).2 =
      ((runJob spec audit genUtc idx total job r).1.overall_failed &&
        !spec.run.continue_on_error) ∧
    (runJob spec audit genUtc idx total job r).1.table_results.map
      TableResult.table = [job.name] ∧
    (runJob spec audit genUtc idx total job r).1.calls = [(idx, job)] ∧
    (runJob spec audit genUtc idx total job r).1.processed = 1 ∧
    (runJob spec audit genUtc idx total job r).1.tables_skipped = 0 := by
  cases r with
  | exn msg => exact ⟨rfl, rfl, rfl, rfl, rfl, rfl⟩
  | ok report =>
    cases hp : persist_table_payload spec.run.allow_pii_output
        (serialize_report report job.name job.modules job.config audit genUtc) with
    | none =>
      simp only [runJob, engine_outcome_failed, hp]
      simp [exnContribution]
    | some pr =>
      cases pr with
      | mk outP events =>
        cases hc : payloadCounts outP with
        | none =>
          simp only [runJob, engine_outcome_failed, hp, hc]
          simp [exnContribution]
        | some counts =>
          simp only [runJob, engine_outcome_failed, hp, hc]
          simp

theorem runJob_overall (spec : EnterpriseSpec) (audit : JValue) (genUtc : Str)
    (idx total : Nat) (job : TableJob) (r : EngineResult) :
    (runJob spec audit genUtc idx total job r).1.overall_failed =
      engine_outcome_failed spec audit genUtc job r :=
  (runJob_facts spec audit genUtc idx total job r).1

theorem runJob_break (spec : EnterpriseSpec) (audit : JValue) (genUtc : Str)
    (idx total : Nat) (job : TableJob) (r : EngineResult) :
    (runJob spec audit genUtc idx total job r).2 =
      ((runJob spec audit genUtc idx total job r).1.overall_failed &&
        !spec.run.continue_on_error) :=
  (runJob_facts spec audit genUtc idx total job r).2.1

theorem runJob_tables (spec : EnterpriseSpec) (audit : JValue) (genUtc : Str)
    (idx total : Nat) (job : TableJob) (r : EngineResult) :
    (runJob spec audit genUtc idx total job r).1.table_results.map
      TableResult.table = [job.name] :=
  (runJob_facts spec audit genUtc idx total job r).2.2.1

theorem runJob_calls (spec : EnterpriseSpec) (audit : JValue) (genUtc : Str)
    (idx total : Nat) (job : TableJob) (r : EngineResult) :
    (runJob spec audit genUtc idx total job r).1.calls = [(idx, job)] :=
  (runJob_facts spec audit genUtc idx total job r).2.2.2.1

theorem runJob_processed (spec : EnterpriseSpec) (audit : JValue) (genUtc : Str)
    (idx total : Nat) (job : TableJob) (r : EngineResult) :
    (runJob spec audit genUtc idx total job r).1.processed = 1 :=
  (runJob_facts spec audit genUtc idx total job r).2.2.2.2.1

theorem runJob_skipped (spec : EnterpriseSpec) (audit : JValue) (genUtc : Str)
    (idx total : Nat) (job : TableJob) (r : EngineResult) :
    (runJob spec audit genUtc idx total job r).1.tables_skipped = 0 :=
  (runJob_facts spec audit genUtc idx total job r).2.2.2.2.2

/-- C2: with `continue_on_error = false` over a 3-table plan in which the
second job fails (by `fail_on` hit or engine exception) while the first
and third do not, the summary holds exactly the two results for tables 1
and 2 in order, table 3 is neither invoked nor recorded (only two engine
calls, two jobs processed), and the exit code is 1. -/
theorem claim_C2 (spec : EnterpriseSpec) (audit : JValue) (genUtc : Str)
    (engine : Nat → TableJob → EngineResult) (j1 j2 j3 : TableJob)
    (hplan : planned_jobs spec none = [j1, j2, j3])
    (hcont : spec.run.continue_on_error = false)
    (h1 : engine_outcome_failed spec audit genUtc j1 (engine 1 j1) = false)
    (h2 : engine_outcome_failed spec audit genUtc j2 (engine 2 j2) = true)
    (_h3 : engine_outcome_failed spec audit genUtc j3 (engine 3 j3) = false) :
    (run_from_spec spec audit genUtc engine false none []).state.table_results.map
        TableResult.table = [j1.name, j2.name] ∧
    (run_from_spec spec audit genUtc engine false none []).exit_code = 1 ∧
    (run_from_spec spec audit genUtc engine false none []).state.calls =
      [(1, j1), (2, j2)] ∧
    (run_from_spec spec audit genUtc engine false none []).state.processed = 2 := by
  have hrun : run_from_spec spec audit genUtc engine false none [] =
      ⟨runJobs spec audit genUtc engine [] 3 1 [j1, j2, j3],
        if (runJobs spec audit genUtc engine [] 3 1 [j1, j2, j3]).overall_failed
        then 1 else 0, 3⟩ := by
    simp only [run_from_spec, hplan]
    rfl
  have hb1 : (runJob spec audit genUtc 1 3 j1 (engine 1 j1)).2 = false := by
    rw [runJob_break, runJob_overall, h1]
    rfl
  have hb2 : (runJob spec audit genUtc 2 3 j2 (engine 2 j2)).2 = true := by
    rw [runJob_break, runJob_overall, h2, hcont]
    rfl
  have hloop : runJobs spec audit genUtc engine [] 3 1 [j1, j2, j3] =
      combineLoopState (runJob spec audit genUtc 1 3 j1 (engine 1 j1)).1
        (runJob spec audit genUtc 2 3 j2 (engine 2 j2)).1 := by
    simp only [runJobs]
    rw [hb1, hb2]
    simp
  have ho1 : (runJob spec audit genUtc 1 3 j1 (engine 1 j1)).1.overall_failed
      = false := by rw [runJob_overall]; exact h1
  have ho2 : (runJob spec audit genUtc 2 3 j2 (engine 2 j2)).1.overall_failed
      = true := by rw [runJob_overall]; exact h2
  refine ⟨?_, ?_, ?_, ?_⟩
  · rw [hrun]
    show (runJobs spec audit genUtc engine [] 3 1 [j1, j2, j3]).table_results.map
      TableResult.table = _
    rw [hloop]
    show ((runJob spec audit genUtc 1 3 j1 (engine 1 j1)).1.table_results ++
      (runJob spec audit genUtc 2 3 j2 (engine 2 j2)).1.table_results).map
        TableResult.table = _
    rw [List.map_append, runJob_tables, runJob_tables]
    rfl
  · rw [hrun]
    show (if (runJobs spec audit genUtc engine [] 3 1
        [j1, j2, j3]).overall_failed then 1 else 0) = 1
    rw [hloop]
    show (if ((runJob spec audit genUtc 1 3 j1 (engine 1 j1)).1.overall_failed ||
      (runJob spec audit genUtc 2 3 j2 (engine 2 j2)).1.overall_failed)
        then 1 else 0) = 1
    rw [ho1, ho2]
    rfl
  · rw [hrun]
    show (runJobs spec audit genUtc engine [] 3 1 [j1, j2, j3]).calls = _
    rw [hloop]
    show (runJob spec audit genUtc 1 3 j1 (engine 1 j1)).1.calls ++
      (runJob spec audit genUtc 2 3 j2 (engine 2 j2)).1.calls = _
    rw [runJob_calls, runJob_calls]
    rfl
  · rw [hrun]
    show (runJobs spec audit genUtc engine [] 3 1 [j1, j2, j3]).processed = 2
    rw [hloop]
    show (runJob spec audit genUtc 1 3 j1 (engine 1 j1)).1.processed +
      (runJob spec audit genUtc 2 3 j2 (engine 2 j2)).1.processed = 2
    rw [runJob_processed, runJob_processed]

def c2Spec : EnterpriseSpec :=
  ⟨⟨strOf "r", strOf "./out", [strOf "error"], false, false⟩,
    [⟨strOf "t1", [strOf "m"], JObj.nil⟩, ⟨strOf "t2", [strOf "m"], JObj.nil⟩,
      ⟨strOf "t3", [strOf "m"], JObj.nil⟩]⟩

def c2Engine : Nat → TableJob → EngineResult :=
  fun idx _ =>
    if idx = 2 then EngineResult.exn (strOf "RuntimeError: boom")
    else EngineResult.ok (mkReport [strOf "ok"])

theorem claim_C2_witness :
    (planned_jobs c2Spec none = [⟨strOf "t1", [strOf "m"], JObj.nil⟩,
        ⟨strOf "t2", [strOf "m"], JObj.nil⟩, ⟨strOf "t3", [strOf "m"], JObj.nil⟩] ∧
      c2Spec.run.continue_on_error = false) ∧
    (run_from_spec c2Spec JValue.null (strOf "ts") c2Engine
        false none []).state.table_results.map TableResult.table =
      [strOf "t1", strOf "t2"] ∧
    (run_from_spec c2Spec JValue.null (strOf "ts") c2Engine false none []).exit_code
      = 1 ∧
    (run_from_spec c2Spec JValue.null (strOf "ts") c2Engine false none []).state.calls
      = [(1, ⟨strOf "t1", [strOf "m"], JObj.nil⟩),
          (2, ⟨strOf "t2", [strOf "m"], JObj.nil⟩)] ∧
    (run_from_spec c2Spec JValue.null (strOf "ts") c2Engine
        false none []).state.processed = 2 :=
  ⟨⟨by decide, by decide⟩,
    claim_C2 c2Spec JValue.null (strOf "ts") c2Engine
      ⟨strOf "t1", [strOf "m"], JObj.nil⟩ ⟨strOf "t2", [strOf "m"], JObj.nil⟩
      ⟨strOf "t3", [strOf "m"], JObj.nil⟩ (by decide) (by decide)
      (by decide) (by decide) (by decide)⟩

/-! ### Resume invariants of the loop -/

theorem combine_events (a b : LoopState) :
    (combineLoopState a b).events = a.events ++ b.events := rfl

theorem combine_calls (a b : LoopState) :
    (combineLoopState a b).calls = a.calls ++ b.calls := rfl

theorem combine_processed (a b : LoopState) :
    (combineLoopState a b).processed = a.processed + b.processed := rfl

theorem combine_skipped (a b : LoopState) :
    (combineLoopState a b).tables_skipped = a.tables_skipped + b.tables_skipped := rfl

theorem runJobs_resume_invariant (spec : EnterpriseSpec) (audit : JValue)
    (genUtc : Str) (engine : Nat → TableJob → EngineResult) (comp : List Str)
    (total : Nat) :
    ∀ (jobs : List TableJob) (idx : Nat),
      (∀ q ∈ (runJobs spec audit genUtc engine comp total idx jobs).calls,
        q.2.name ∉ comp) ∧
      (runJobs spec audit genUtc engine comp total idx jobs).processed ≤
        jobs.length ∧
      (∀ j ∈ jobs.take
          (runJobs spec audit genUtc engine comp total idx jobs).processed,
        j.name ∈ comp →
        StateEvent.skipped j.name ∈
          (runJobs spec audit genUtc engine comp total idx jobs).events) ∧
      (runJobs spec audit genUtc engine comp total idx jobs).tables_skipped =
        ((jobs.take
          (runJobs spec audit genUtc engine comp total idx jobs).processed).filter
            (fun j => decide (j.name ∈ comp))).length := by
  intro jobs
  induction jobs with
  | nil =>
    intro idx
    refine ⟨?_, ?_, ?_, ?_⟩ <;> simp [runJobs, emptyLoopState]
  | cons job rest ih =>
    intro idx
    obtain ⟨ih1, ih2, ih3, ih4⟩ := ih (idx + 1)
    by_cases hmem : job.name ∈ comp
    · have heq : runJobs spec audit genUtc engine comp total idx (job :: rest) =
          combineLoopState
            ⟨[StateEvent.skipped job.name], 0, 0, 1, [], [], [], false, 1⟩
            (runJobs spec audit genUtc engine comp total (idx + 1) rest) := by
        simp only [runJobs]
        rw [if_pos hmem]
      rw [heq]
      refine ⟨?_, ?_, ?_, ?_⟩
      · rw [combine_calls]
        intro q hq
        rcases List.mem_append.mp hq with hq1 | hq2
        · exact absurd hq1 (List.not_mem_nil q)
        · exact ih1 q hq2
      · rw [combine_processed]
        show 1 + (runJobs spec audit genUtc engine comp total (idx + 1)
          rest).processed ≤ rest.length + 1
        omega
      · rw [combine_processed, combine_events]
        intro j hj hcomp
        rw [Nat.add_comm 1 _, List.take_succ_cons] at hj
        rcases List.mem_cons.mp hj with rfl | hj'
        · exact List.mem_append.mpr (Or.inl (List.mem_singleton.mpr rfl))
        · exact List.mem_append.mpr (Or.inr (ih3 j hj' hcomp))
      · show 1 + (runJobs spec audit genUtc engine comp total (idx + 1)
            rest).tables_skipped =
          (List.filter (fun j => decide (j.name ∈ comp))
            (List.take (1 + (runJobs spec audit genUtc engine comp total (idx + 1)
              rest).processed) (job :: rest))).length
        rw [Nat.add_comm 1 ((runJobs spec audit genUtc engine comp total (idx + 1)
            rest).processed), List.take_succ_cons, List.filter_cons,
          if_pos (by simpa using hmem), List.length_cons, ih4]
        omega
    · have heq : runJobs spec audit genUtc engine comp total idx (job :: rest) =
          (if (runJob spec audit genUtc idx total job (engine idx job)).2 = true
           then (runJob spec audit genUtc idx total job (engine idx job)).1
           else combineLoopState
             (runJob spec audit genUtc idx total job (engine idx job)).1
             (runJobs spec audit genUtc engine comp total (idx + 1) rest)) := by
        simp only [runJobs]
        rw [if_neg hmem]
      by_cases habort : (runJob spec audit genUtc idx total job (engine idx job)).2
          = true
      · rw [heq, if_pos habort]
        refine ⟨?_, ?_, ?_, ?_⟩
        · rw [runJob_calls]
          intro q hq
          rcases List.mem_singleton.mp hq with rfl
          exact hmem
        · rw [runJob_processed]
          simp
        · rw [runJob_processed]
          intro j hj hcomp
          simp only [List.take_succ_cons, List.take_zero] at hj
          rcases List.mem_singleton.mp hj with rfl
          exact absurd hcomp hmem
        · rw [runJob_skipped, runJob_processed]
          simp [hmem]
      · rw [heq, if_neg habort]
        refine ⟨?_, ?_, ?_, ?_⟩
        · rw [combine_calls, runJob_calls]
          intro q hq
          rcases List.mem_append.mp hq with hq1 | hq2
          · rcases List.mem_singleton.mp hq1 with rfl
            exact hmem
          · exact ih1 q hq2
        · rw [combine_processed, runJob_processed]
          show 1 + (runJobs spec audit genUtc engine comp total (idx + 1)
            rest).processed ≤ rest.length + 1
          omega
        · rw [combine_processed, combine_events, runJob_processed]
          intro j hj hcomp
          rw [Nat.add_comm 1 _, List.take_succ_cons] at hj
          rcases List.mem_cons.mp hj with rfl | hj'
          · exact absurd hcomp hmem
          · exact List.mem_append.mpr (Or.inr (ih3 j hj' hcomp))
        · rw [combine_skipped, combine_processed, runJob_skipped, runJob_processed]
          show 0 + (runJobs spec audit genUtc engine comp total (idx + 1)
            rest).tables_skipped = _
          rw [Nat.add_comm 1 _, List.take_succ_cons, List.filter_cons,
            if_neg (by simpa using hmem)]
          rw [ih4]
          omega

def c1Spec : EnterpriseSpec :=
  ⟨⟨strOf "r", strOf "./out", [strOf "error"], false, false⟩,
    [⟨strOf "t1", [strOf "m"], JObj.nil⟩, ⟨strOf "t2", [strOf "m"], JObj.nil⟩]⟩

def c1Log : List StateRec := [⟨strOf "t2", strOf "completed"⟩]

def c1Engine : Nat → TableJob → EngineResult :=
  fun _ _ => EngineResult.exn (strOf "RuntimeError: boom")

/-- C1 fails as stated: with `continue_on_error = false`, a failure on an
earlier table aborts the loop before a later table named in the completed
set is reached — no `skipped` event is appended for it and the skipped
counter stays 0, although its name has a `completed` record in the state
log (the engine is indeed never invoked for it). -/
theorem claim_C1_counterexample :
    strOf "t2" ∈ completed_set c1Log ∧
    strOf "t2" ∈ (planned_jobs c1Spec none).map TableJob.name ∧
    (run_from_spec c1Spec JValue.null (strOf "ts") c1Engine true none
      c1Log).state.tables_skipped = 0 ∧
    ((run_from_spec c1Spec JValue.null (strOf "ts") c1Engine true none
      c1Log).state.events.all
        (fun e => match e with | StateEvent.skipped _ => false | _ => true))
      = true := by decide

/-- C1 (amended): in a resumed run, the engine is never invoked for a job
whose name has a `completed` record in the state log; and every planned job
the loop actually reaches (it can stop early on `limit` or on a
`continue_on_error = false` failure) whose name has a `completed` record
gets a `skipped` event, with the skipped counter equal to the number of
such reached jobs. -/
theorem claim_C1 (spec : EnterpriseSpec) (audit : JValue) (genUtc : Str)
    (engine : Nat → TableJob → EngineResult) (limit : Option Nat)
    (log : List StateRec) :
    (∀ q ∈ (run_from_spec spec audit genUtc engine true limit log).state.calls,
      q.2.name ∉ completed_set log) ∧
    (∀ j ∈ (planned_jobs spec limit).take
        (run_from_spec spec audit genUtc engine true limit log).state.processed,
      j.name ∈ completed_set log →
      StateEvent.skipped j.name ∈
        (run_from_spec spec audit genUtc engine true limit log).state.events) ∧
    (run_from_spec spec audit genUtc engine true limit log).state.tables_skipped =
      (((planned_jobs spec limit).take
        (run_from_spec spec audit genUtc engine true limit log).state.processed).filter
          (fun j => decide (j.name ∈ completed_set log))).length := by
  have h := runJobs_resume_invariant spec audit genUtc engine (completed_set log)
    (planned_jobs spec limit).length (planned_jobs spec limit) 1
  exact ⟨h.1, h.2.2.1, h.2.2.2⟩

/-! ### Validation of `run.fail_on` (`spec.py` lines 65–85) -/

/-- The extraction and first normalisation of `run.fail_on`
(`spec.py` lines 65–69), exactly as inlined in `parse_run`. -/
def fail_on_tokens (entries : JObj) : Except Str (List Str) :=
  match (jObjLookup entries (strOf "fail_on")).getD
      (JValue.arr (JArr.cons (JValue.str (strOf "error")) JArr.nil)) with
  | JValue.str s => Except.ok (normStatusList (List.splitOn ',' s))
  | JValue.arr items =>
    match allStrings (jArrToList items) with
    | some l => Except.ok l
    | none => Except.error
        (strOf "run.fail_on must be a list of strings or comma-separated string")
  | _ => Except.error
      (strOf "run.fail_on must be a list of strings or comma-separated string")

/-- The `RunSpec` that `parse_run` builds once `fail_on` validates
(`spec.py` lines 62–63 and 76–85). -/
def parse_run_rest (entries : JObj) (fail_on_norm : List Str) : RunSpec :=
  let idv := (jObjLookup entries (strOf "id")).getD JValue.null
  let run_id := if jTruthy idv then idv else JValue.str (strOf "dcheck-run")
  let o1 := (jObjLookup entries (strOf "output_path")).getD JValue.null
  let o2 := if jTruthy o1 then o1 else
    (jObjLookup entries (strOf "output")).getD JValue.null
  let o3 := if jTruthy o2 then o2 else JValue.str (strOf "./out")
  { id := pyStr run_id
    output_path := pyStr o3
    fail_on := if fail_on_norm.isEmpty then [strOf "error"] else fail_on_norm
    continue_on_error :=
      match jObjLookup entries (strOf "continue_on_error") with
      | some v => jTruthy v
      | none => true
    allow_pii_output :=
      match jObjLookup entries (strOf "allow_pii_output") with
      | some v => jTruthy v
      | none => false }

theorem parse_run_eq (entries : JObj) :
    parse_run (JValue.obj entries) =
      match fail_on_tokens entries with
      | Except.error e => Except.error e
      | Except.ok l =>
        if ((normStatusList l).filter
            (fun s => decide (s ∉ ALLOWED_STATUSES))).isEmpty then
          Except.ok (parse_run_rest entries (normStatusList l))
        else Except.error (strOf "unknown statuses in run.fail_on") := rfl

theorem list_isEmpty_eq_nil {α : Type} (l : List α) (h : l.isEmpty = true) :
    l = [] := by
  cases l with
  | nil => rfl
  | cons a t => simp [List.isEmpty] at h

theorem filter_nil_forall {α : Type} (p : α → Bool) (l : List α)
    (h : l.filter p = []) : ∀ a ∈ l, p a = false := by
  intro a ha
  cases hpa : p a with
  | false => rfl
  | true =>
    have hmem : a ∈ l.filter p := List.mem_filter.mpr ⟨ha, hpa⟩
    rw [h] at hmem
    exact absurd hmem (List.not_mem_nil a)

/-- Every `fail_on` entry of a `RunSpec` accepted by `parse_run` is one of
the four allowed status tokens. -/
theorem parse_run_fail_on_allowed (run : JValue) (rs : RunSpec)
    (h : parse_run run = Except.ok rs) :
    ∀ s ∈ rs.fail_on, s ∈ ALLOWED_STATUSES := by
  cases run
  case obj entries =>
    rw [parse_run_eq] at h
    cases hfo : fail_on_tokens entries with
    | error e => rw [hfo] at h; exact Except.noConfusion h
    | ok l =>
      rw [hfo] at h
      replace h : (if ((normStatusList l).filter
            (fun s => decide (s ∉ ALLOWED_STATUSES))).isEmpty = true then
          Except.ok (parse_run_rest entries (normStatusList l))
        else Except.error (strOf "unknown statuses in run.fail_on")) =
          Except.ok rs := h
      by_cases hc : ((normStatusList l).filter
          (fun s => decide (s ∉ ALLOWED_STATUSES))).isEmpty = true
      · rw [if_pos hc] at h
        injection h with h
        subst h
        simp only [parse_run_rest]
        by_cases he : (normStatusList l).isEmpty = true
        · rw [if_pos he]
          intro s hs
          rcases List.mem_singleton.mp hs with rfl
          decide
        · rw [if_neg he]
          intro s hs
          have hflt := filter_nil_forall _ _ (list_isEmpty_eq_nil _ hc) s hs
          exact not_not.mp (of_decide_eq_false hflt)
      · rw [if_neg hc] at h
        exact Except.noConfusion h
  all_goals exact Except.noConfusion h

/-- If the spec root passed validation, its `run` section passed
`parse_run` with exactly the resulting `run` component. -/
theorem load_ok_parse_run (data : JValue) (spec : EnterpriseSpec)
    (h : load_and_validate_spec data = Except.ok spec) :
    ∃ entries, data = JValue.obj entries ∧
      parse_run ((jObjLookup entries (strOf "run")).getD (JValue.obj JObj.nil)) =
        Except.ok spec.run := by
  cases data
  case obj entries =>
    refine ⟨entries, rfl, ?_⟩
    simp only [load_and_validate_spec] at h
    cases hpr : parse_run ((jObjLookup entries (strOf "run")).getD
        (JValue.obj JObj.nil)) with
    | error e => rw [hpr] at h; exact Except.noConfusion h
    | ok run =>
      rw [hpr] at h
      cases hpt : parse_tables (jObjLookup entries (strOf "tables")) with
      | error e => rw [hpt] at h; exact Except.noConfusion h
      | ok tables =>
        rw [hpt] at h
        replace h : (if tables.isEmpty = true then
            Except.error (strOf "tables must contain at least 1 table entry")
          else Except.ok ({ run := run, tables := tables } : EnterpriseSpec)) =
            Except.ok spec := h
        by_cases he : tables.isEmpty = true
        · rw [if_pos he] at h
          exact Except.noConfusion h
        · rw [if_neg he] at h
          injection h with h
          rw [← h]
  all_goals exact Except.noConfusion h

theorem load_error_of_run_error (entries : JObj) (msg : Str)
    (h : parse_run ((jObjLookup entries (strOf "run")).getD (JValue.obj JObj.nil)) =
      Except.error msg) :
    load_and_validate_spec (JValue.obj entries) = Except.error msg := by
  simp only [load_and_validate_spec, h]

theorem load_ok_intro (entries : JObj) (rs : RunSpec) (tables : List TableSpec)
    (hpr : parse_run ((jObjLookup entries (strOf "run")).getD (JValue.obj JObj.nil)) =
      Except.ok rs)
    (hpt : parse_tables (jObjLookup entries (strOf "tables")) = Except.ok tables)
    (hne : tables ≠ []) :
    load_and_validate_spec (JValue.obj entries) = Except.ok ⟨rs, tables⟩ := by
  cases tables with
  | nil => exact absurd rfl hne
  | cons t ts => simp only [load_and_validate_spec, hpr, hpt]; rfl

/-- C7: a `run.fail_on` token outside `{ok, warning, error, fail}` (after
stripping and lower-casing) makes `load_and_validate_spec` fail with a
`SpecError` up front; and every `fail_on` entry of a spec that did validate
is one of the four allowed tokens, so unknown tokens never reach the run
loop. -/
theorem claim_C7 (entries rentries : JObj) (l : List Str)
    (hrun : (jObjLookup entries (strOf "run")).getD (JValue.obj JObj.nil) =
      JValue.obj rentries)
    (hl : fail_on_tokens rentries = Except.ok l)
    (hbad : ∃ s ∈ normStatusList l, s ∉ ALLOWED_STATUSES) :
    (∃ msg, load_and_validate_spec (JValue.obj entries) = Except.error msg) ∧
    (∀ (data : JValue) (spec : EnterpriseSpec),
      load_and_validate_spec data = Except.ok spec →
      ∀ s ∈ spec.run.fail_on, s ∈ ALLOWED_STATUSES) := by
  constructor
  · obtain ⟨s, hs, hsn⟩ := hbad
    have hmem : s ∈ (normStatusList l).filter
        (fun s => decide (s ∉ ALLOWED_STATUSES)) :=
      List.mem_filter.mpr ⟨hs, decide_eq_true hsn⟩
    have hne : ¬ (((normStatusList l).filter
        (fun s => decide (s ∉ ALLOWED_STATUSES))).isEmpty = true) := by
      intro hemp
      rw [list_isEmpty_eq_nil _ hemp] at hmem
      exact absurd hmem (List.not_mem_nil s)
    have hperr : parse_run (JValue.obj rentries) =
        Except.error (strOf "unknown statuses in run.fail_on") := by
      rw [parse_run_eq, hl]
      exact if_neg hne
    rw [← hrun] at hperr
    exact ⟨_, load_error_of_run_error entries _ hperr⟩
  · intro data spec hload s hs
    obtain ⟨entries', _, hpr⟩ := load_ok_parse_run data spec hload
    exact parse_run_fail_on_allowed _ _ hpr s hs

def c7Run : JObj :=
  JObj.cons (strOf "fail_on") (JValue.str (strOf "critical")) JObj.nil

def c7Entries : JObj :=
  JObj.cons (strOf "run") (JValue.obj c7Run)
    (JObj.cons (strOf "tables")
      (JValue.arr (JArr.cons
        (JValue.obj (JObj.cons (strOf "name") (JValue.str (strOf "t")) JObj.nil))
        JArr.nil))
      JObj.nil)

theorem claim_C7_witness :
    (∃ msg, load_and_validate_spec (JValue.obj c7Entries) = Except.error msg) ∧
    (∀ (data : JValue) (spec : EnterpriseSpec),
      load_and_validate_spec data = Except.ok spec →
      ∀ s ∈ spec.run.fail_on, s ∈ ALLOWED_STATUSES) :=
  claim_C7 c7Entries c7Run [strOf "critical"] (by decide) (by decide)
    ⟨strOf "critical", by decide, by decide⟩

/-- C10: a `fail_on` key that is present but normalizes to the empty list
is silently replaced by the default `["error"]`, with no validation error. -/
theorem claim_C10 (entries rentries : JObj) (failv : JValue) (l : List Str)
    (tables : List TableSpec)
    (hrun : (jObjLookup entries (strOf "run")).getD (JValue.obj JObj.nil) =
      JValue.obj rentries)
    (_hpres : jObjLookup rentries (strOf "fail_on") = some failv)
    (hl : fail_on_tokens rentries = Except.ok l)
    (hempty : normStatusList l = [])
    (htab : parse_tables (jObjLookup entries (strOf "tables")) = Except.ok tables)
    (hne : tables ≠ []) :
    ∃ rs, parse_run (JValue.obj rentries) = Except.ok rs ∧
      rs.fail_on = [strOf "error"] ∧
      load_and_validate_spec (JValue.obj entries) = Except.ok ⟨rs, tables⟩ := by
  have hpr : parse_run (JValue.obj rentries) =
      Except.ok (parse_run_rest rentries (normStatusList l)) := by
    rw [parse_run_eq, hl]
    show (if ((normStatusList l).filter
        (fun s => decide (s ∉ ALLOWED_STATUSES))).isEmpty = true then
        Except.ok (parse_run_rest rentries (normStatusList l))
      else Except.error (strOf "unknown statuses in run.fail_on")) = _
    rw [hempty]
    rfl
  refine ⟨parse_run_rest rentries (normStatusList l), hpr, ?_, ?_⟩
  · simp only [parse_run_rest, hempty]
    rfl
  · rw [← hrun] at hpr
    exact load_ok_intro entries _ tables hpr htab hne

def c10Run : JObj :=
  JObj.cons (strOf "fail_on") (JValue.str (strOf " , ,  ")) JObj.nil

def c10Entries : JObj :=
  JObj.cons (strOf "run") (JValue.obj c10Run)
    (JObj.cons (strOf "tables")
      (JValue.arr (JArr.cons
        (JValue.obj (JObj.cons (strOf "name") (JValue.str (strOf "t")) JObj.nil))
        JArr.nil))
      JObj.nil)

theorem claim_C10_witness :
    ∃ rs, parse_run (JValue.obj c10Run) = Except.ok rs ∧
      rs.fail_on = [strOf "error"] ∧
      load_and_validate_spec (JValue.obj c10Entries) =
        Except.ok ⟨rs, [⟨strOf "t", [strOf "core_quality"], JObj.nil⟩]⟩ :=
  claim_C10 c10Entries c10Run (JValue.str (strOf " , ,  ")) []
    [⟨strOf "t", [strOf "core_quality"], JObj.nil⟩]
    (by decide) (by decide) (by decide) (by decide) (by decide) (by decide)

/-! ### Table validation and planning (`spec.py` lines 39–47, 88–115;
`planner.py`) -/

theorem parse_tables_entries_ok (l : List JValue) (tss : List TableSpec)
    (h : l.map parse_table_entry = tss.map Except.ok) :
    l.foldr (fun t acc =>
      match parse_table_entry t, acc with
      | Except.ok ts, Except.ok rest => Except.ok (ts :: rest)
      | Except.error e, _ => Except.error e
      | _, Except.error e => Except.error e) (Except.ok []) = Except.ok tss := by
  induction l generalizing tss with
  | nil =>
    cases tss with
    | nil => rfl
    | cons a b => simp at h
  | cons t l ih =>
    cases tss with
    | nil => simp at h
    | cons ts tss2 =>
      simp only [List.map_cons, List.cons.injEq] at h
      obtain ⟨h1, h2⟩ := h
      simp only [List.foldr_cons]
      rw [ih tss2 h2, h1]

theorem load_error_of_tables_empty (entries : JObj) (run : RunSpec)
    (hpr : parse_run ((jObjLookup entries (strOf "run")).getD (JValue.obj JObj.nil)) =
      Except.ok run)
    (h : parse_tables (jObjLookup entries (strOf "tables")) = Except.ok []) :
    load_and_validate_spec (JValue.obj entries) =
      Except.error (strOf "tables must contain at least 1 table entry") := by
  simp only [load_and_validate_spec, hpr, h]
  rfl

theorem load_error_of_tables_err (entries : JObj) (run : RunSpec) (e : Str)
    (hpr : parse_run ((jObjLookup entries (strOf "run")).getD (JValue.obj JObj.nil)) =
      Except.ok run)
    (h : parse_tables (jObjLookup entries (strOf "tables")) = Except.error e) :
    load_and_validate_spec (JValue.obj entries) = Except.error e := by
  simp only [load_and_validate_spec, hpr, h]

def c8Run : JObj :=
  JObj.cons (strOf "fail_on") (JValue.str (strOf "warn")) JObj.nil

def c8Tables : JValue :=
  JValue.arr (JArr.cons
    (JValue.obj (JObj.cons (strOf "name") (JValue.str (strOf "cat.sch.tbl")) JObj.nil))
    JArr.nil)

def c8Data : JValue :=
  JValue.obj (JObj.cons (strOf "run") (JValue.obj c8Run)
    (JObj.cons (strOf "tables") c8Tables JObj.nil))

/-- C8 overclaims: a specification whose every table entry is well-formed
(here one table, parsing to a valid `TableSpec`) can still fail validation,
because `_parse_run` rejects the spec first when `run.fail_on` holds an
unknown status token. -/
theorem claim_C8_counterexample :
    parse_tables (some c8Tables) =
      Except.ok [⟨strOf "cat.sch.tbl", [strOf "core_quality"], JObj.nil⟩] ∧
    load_and_validate_spec c8Data =
      Except.error (strOf "unknown statuses in run.fail_on") := by decide

/-- C8 (amended): zero tables (missing, non-list or empty `tables`) always
yield a `SpecError`; and a spec whose table entries are all well-formed
*and whose `run` section validates* loads successfully with the tables in
spec order, `build_plan` being the order-preserving 1:1 projection of those
tables (no filtering, no deduplication). -/
theorem claim_C8 (entries : JObj) (items : JArr) (tss : List TableSpec)
    (rs : RunSpec)
    (hitems : jObjLookup entries (strOf "tables") = some (JValue.arr items))
    (hwf : (jArrToList items).map parse_table_entry = tss.map Except.ok)
    (hrun : parse_run ((jObjLookup entries (strOf "run")).getD (JValue.obj JObj.nil)) =
      Except.ok rs)
    (hne : tss ≠ []) :
    load_and_validate_spec (JValue.obj entries) = Except.ok ⟨rs, tss⟩ ∧
    build_plan ⟨rs, tss⟩ = tss.map (fun t => ⟨t.name, t.modules, t.config⟩) ∧
    (∀ entries2 : JObj,
      (parse_tables (jObjLookup entries2 (strOf "tables")) = Except.ok [] ∨
        (∃ e, parse_tables (jObjLookup entries2 (strOf "tables")) =
          Except.error e)) →
      ∃ msg, load_and_validate_spec (JValue.obj entries2) = Except.error msg) := by
  have hpt : parse_tables (jObjLookup entries (strOf "tables")) = Except.ok tss := by
    rw [hitems]
    exact parse_tables_entries_ok _ _ hwf
  refine ⟨load_ok_intro entries rs tss hrun hpt hne, rfl, ?_⟩
  intro entries2 hzero
  cases hpr2 : parse_run ((jObjLookup entries2 (strOf "run")).getD
      (JValue.obj JObj.nil)) with
  | error e => exact ⟨e, load_error_of_run_error entries2 e hpr2⟩
  | ok run2 =>
    rcases hzero with hok | ⟨e, herr⟩
    · exact ⟨_, load_error_of_tables_empty entries2 run2 hpr2 hok⟩
    · exact ⟨e, load_error_of_tables_err entries2 run2 e hpr2 herr⟩

def c8wItems : JArr :=
  JArr.cons
    (JValue.obj (JObj.cons (strOf "name") (JValue.str (strOf "t")) JObj.nil))
    (JArr.cons
      (JValue.obj (JObj.cons (strOf "name") (JValue.str (strOf "t")) JObj.nil))
      JArr.nil)

def c8wEntries : JObj :=
  JObj.cons (strOf "tables") (JValue.arr c8wItems) JObj.nil

theorem claim_C8_witness :
    load_and_validate_spec (JValue.obj c8wEntries) =
      Except.ok ⟨⟨strOf "dcheck-run", strOf "./out", [strOf "error"], true, false⟩,
        [⟨strOf "t", [strOf "core_quality"], JObj.nil⟩,
          ⟨strOf "t", [strOf "core_quality"], JObj.nil⟩]⟩ ∧
    build_plan ⟨⟨strOf "dcheck-run", strOf "./out", [strOf "error"], true, false⟩,
        [⟨strOf "t", [strOf "core_quality"], JObj.nil⟩,
          ⟨strOf "t", [strOf "core_quality"], JObj.nil⟩]⟩ =
      ([⟨strOf "t", [strOf "core_quality"], JObj.nil⟩,
        ⟨strOf "t", [strOf "core_quality"], JObj.nil⟩] : List TableSpec).map
          (fun t => (⟨t.name, t.modules, t.config⟩ : TableJob)) ∧
    (∀ entries2 : JObj,
      (parse_tables (jObjLookup entries2 (strOf "tables")) = Except.ok [] ∨
        (∃ e, parse_tables (jObjLookup entries2 (strOf "tables")) =
          Except.error e)) →
      ∃ msg, load_and_validate_spec (JValue.obj entries2) = Except.error msg) :=
  claim_C8 c8wEntries c8wItems
    [⟨strOf "t", [strOf "core_quality"], JObj.nil⟩,
      ⟨strOf "t", [strOf "core_quality"], JObj.nil⟩]
    ⟨strOf "dcheck-run", strOf "./out", [strOf "error"], true, false⟩
    (by decide) (by decide) (by decide) (by decide)

/-! ### What the persisted per-table file may still contain (`runner.py`
lines 113–126) -/

mutual
/-- Every string occurring in the JSON text of a value: mapping keys as
well as string values, in document order. -/
def jStrings : JValue → List Str
  | JValue.str s => [s]
  | JValue.num _ => []
  | JValue.bool _ => []
  | JValue.null => []
  | JValue.arr items => jStringsArr items
  | JValue.obj entries => jStringsObj entries
def jStringsArr : JArr → List Str
  | JArr.nil => []
  | JArr.cons v tl => jStrings v ++ jStringsArr tl
def jStringsObj : JObj → List Str
  | JObj.nil => []
  | JObj.cons k v tl => k :: (jStrings v ++ jStringsObj tl)
end

/-- Some string in the JSON text of `v` — a mapping key or a string value —
matches the email pattern. -/
def jHasEmail (v : JValue) : Bool :=
  (jStrings v).any (fun s => searchNB emailMatchAt s)

mutual
/-- Every mapping key occurring anywhere in a value. -/
def jKeys : JValue → List Str
  | JValue.str _ => []
  | JValue.num _ => []
  | JValue.bool _ => []
  | JValue.null => []
  | JValue.arr items => jKeysArr items
  | JValue.obj entries => jKeysObj entries
def jKeysArr : JArr → List Str
  | JArr.nil => []
  | JArr.cons v tl => jKeys v ++ jKeysArr tl
def jKeysObj : JObj → List Str
  | JObj.nil => []
  | JObj.cons k v tl => k :: (jKeys v ++ jKeysObj tl)
end

theorem emailMatchAt_mem_at {l : Str} {n : Nat} (h : emailMatchAt l = some n) :
    ('@' : Char) ∈ l := by
  obtain ⟨rest2, _, hdrop, _⟩ := emailMatchAt_some_elim h
  have hm : ('@' : Char) ∈ l.drop (leadingRun localChar l) := by
    rw [hdrop]
    exact List.mem_cons_self _ _
  exact List.drop_subset _ l hm

theorem searchNB_email_at : ∀ {l : Str}, searchNB emailMatchAt l = true →
    ('@' : Char) ∈ l
  | [], h => by simp [searchNB] at h
  | c :: rest, h => by
    rw [searchNB_cons, Bool.or_eq_true] at h
    rcases h with h | h
    · obtain ⟨n, hn⟩ := Option.isSome_iff_exists.mp h
      exact emailMatchAt_mem_at hn
    · exact List.mem_cons_of_mem c (searchNB_email_at h)

theorem searchNB_email_no_at {l : Str} (h : ('@' : Char) ∉ l) :
    searchNB emailMatchAt l = false := by
  cases hs : searchNB emailMatchAt l with
  | false => rfl
  | true => exact absurd (searchNB_email_at hs) h

theorem email_false_of_no_pii {s : Str} (h : contains_obvious_pii s = false) :
    searchNB emailMatchAt s = false := by
  unfold contains_obvious_pii at h
  rw [Bool.or_eq_false_iff, Bool.or_eq_false_iff] at h
  exact h.1.1

theorem redact_string_email_free (s : Str) :
    searchNB emailMatchAt (redact_string s) = false :=
  email_false_of_no_pii (contains_obvious_pii_redact_string s)

theorem pii_true_of_email {s : Str} (h : searchNB emailMatchAt s = true) :
    contains_obvious_pii s = true := by
  simp [contains_obvious_pii, h]

theorem digit_char_ne_at (d : Nat) (hd : d < 10) :
    ('@' : Char) ≠ Char.ofNat (48 + d) := by
  interval_cases d <;> decide

theorem natCharsAux_no_at : ∀ (fuel n : Nat), ('@' : Char) ∉ natCharsAux fuel n
  | 0, n => by simp [natCharsAux]
  | fuel + 1, n => by
    simp only [natCharsAux]
    by_cases h : n < 10
    · rw [if_pos h]
      intro hm
      exact digit_char_ne_at n h (List.mem_singleton.mp hm)
    · rw [if_neg h]
      intro hm
      rcases List.mem_append.mp hm with h1 | h2
      · exact natCharsAux_no_at fuel (n / 10) h1
      · exact digit_char_ne_at (n % 10) (Nat.mod_lt n (by decide))
          (List.mem_singleton.mp h2)

theorem natChars_no_at (n : Nat) : ('@' : Char) ∉ natChars n :=
  natCharsAux_no_at (n + 1) n

theorem index_path_no_at {p : Str} (hp : ('@' : Char) ∉ p) (i : Nat) :
    ('@' : Char) ∉ p ++ '[' :: (natChars i ++ [']']) := by
  intro hm
  rcases List.mem_append.mp hm with h1 | h2
  · exact hp h1
  · rcases List.mem_cons.mp h2 with h3 | h4
    · exact absurd h3 (by decide)
    · rcases List.mem_append.mp h4 with h5 | h6
      · exact natChars_no_at i h5
      · exact absurd (List.mem_singleton.mp h6) (by decide)

theorem key_path_no_at {p k : Str} (hp : ('@' : Char) ∉ p)
    (hk : ('@' : Char) ∉ k) :
    ('@' : Char) ∉ (if p.isEmpty then k else p ++ '.' :: k) := by
  by_cases he : p.isEmpty = true
  · rw [if_pos he]
    exact hk
  · rw [if_neg he]
    intro hm
    rcases List.mem_append.mp hm with h1 | h2
    · exact hp h1
    · rcases List.mem_cons.mp h2 with h3 | h4
      · exact absurd h3 (by decide)
      · exact hk h4

mutual
theorem jleaves_no_at : ∀ (v : JValue) (p : Str),
    (∀ k ∈ jKeys v, ('@' : Char) ∉ k) → ('@' : Char) ∉ p →
    ∀ q ∈ jleaves v p, ('@' : Char) ∉ q.1
  | JValue.str s, p, _, hp => by
    intro q hq
    rcases List.mem_singleton.mp hq with rfl
    exact hp
  | JValue.num n, p, _, _ => by intro q hq; simp [jleaves] at hq
  | JValue.bool b, p, _, _ => by intro q hq; simp [jleaves] at hq
  | JValue.null, p, _, _ => by intro q hq; simp [jleaves] at hq
  | JValue.arr items, p, hk, hp => by
    intro q hq
    exact jleavesArr_no_at items p 0 (fun k h => hk k h) hp q hq
  | JValue.obj entries, p, hk, hp => by
    intro q hq
    exact jleavesObj_no_at entries p (fun k h => hk k h) hp q hq
theorem jleavesArr_no_at : ∀ (items : JArr) (p : Str) (i : Nat),
    (∀ k ∈ jKeysArr items, ('@' : Char) ∉ k) → ('@' : Char) ∉ p →
    ∀ q ∈ jleavesArr items p i, ('@' : Char) ∉ q.1
  | JArr.nil, _, _, _, _ => by intro q hq; simp [jleavesArr] at hq
  | JArr.cons v tl, p, i, hk, hp => by
    intro q hq
    replace hq : q ∈ jleaves v (p ++ '[' :: (natChars i ++ [']'])) ++
        jleavesArr tl p (i + 1) := hq
    rcases List.mem_append.mp hq with h1 | h2
    · exact jleaves_no_at v _ (fun k h => hk k (List.mem_append.mpr (Or.inl h)))
        (index_path_no_at hp i) q h1
    · exact jleavesArr_no_at tl p (i + 1)
        (fun k h => hk k (List.mem_append.mpr (Or.inr h))) hp q h2
theorem jleavesObj_no_at : ∀ (entries : JObj) (p : Str),
    (∀ k ∈ jKeysObj entries, ('@' : Char) ∉ k) → ('@' : Char) ∉ p →
    ∀ q ∈ jleavesObj entries p, ('@' : Char) ∉ q.1
  | JObj.nil, _, _, _ => by intro q hq; simp [jleavesObj] at hq
  | JObj.cons k v tl, p, hk, hp => by
    intro q hq
    replace hq : q ∈ jleaves v (if p.isEmpty then k else p ++ '.' :: k) ++
        jleavesObj tl p := hq
    have hkk : ('@' : Char) ∉ k := hk k (List.mem_cons_self k _)
    rcases List.mem_append.mp hq with h1 | h2
    · exact jleaves_no_at v _
        (fun k2 h => hk k2 (List.mem_cons_of_mem _ (List.mem_append.mpr (Or.inl h))))
        (key_path_no_at hp hkk) q h1
    · exact jleavesObj_no_at tl p
        (fun k2 h => hk k2 (List.mem_cons_of_mem _ (List.mem_append.mpr (Or.inr h))))
        hp q h2
end

/-- Every path the walk records from an '@'-free-keyed payload is itself
free of '@' (so it can never match the email pattern). -/
theorem jwalk_root_paths_no_at (v : JValue)
    (hk : ∀ k ∈ jKeys v, ('@' : Char) ∉ k) :
    ∀ p ∈ (jwalk v []).2, ('@' : Char) ∉ p := by
  intro p hp
  rw [jwalk_paths] at hp
  obtain ⟨q, hq, hpq⟩ := List.mem_map.mp hp
  have hq1 := (List.mem_filter.mp hq).1
  have := jleaves_no_at v [] hk (by simp) q hq1
  exact hpq ▸ this

theorem jwalk_strings_emailFree_str (s p : Str) :
    ∀ t ∈ jStrings (jwalk (JValue.str s) p).1, searchNB emailMatchAt t = false := by
  rw [jwalk_str_eq]
  by_cases h : contains_obvious_pii s = true
  · rw [if_pos h]
    intro t ht
    replace ht : t ∈ [redact_string s] := ht
    rcases List.mem_singleton.mp ht with rfl
    exact redact_string_email_free s
  · rw [if_neg h]
    intro t ht
    replace ht : t ∈ [s] := ht
    rcases List.mem_singleton.mp ht with rfl
    exact email_false_of_no_pii (Bool.eq_false_iff.mpr h)

mutual
theorem jwalk_strings_emailFree : ∀ (v : JValue) (p : Str),
    (∀ k ∈ jKeys v, ('@' : Char) ∉ k) →
    ∀ t ∈ jStrings (jwalk v p).1, searchNB emailMatchAt t = false
  | JValue.str s, p, _ => jwalk_strings_emailFree_str s p
  | JValue.num n, p, _ => by intro t ht; simp [jwalk, jStrings] at ht
  | JValue.bool b, p, _ => by intro t ht; simp [jwalk, jStrings] at ht
  | JValue.null, p, _ => by intro t ht; simp [jwalk, jStrings] at ht
  | JValue.arr items, p, hk => by
    intro t ht
    replace ht : t ∈ jStringsArr (jwalkArr items p 0).1 := ht
    exact jwalkArr_strings_emailFree items p 0 (fun k h => hk k h) t ht
  | JValue.obj entries, p, hk => by
    intro t ht
    replace ht : t ∈ jStringsObj (jwalkObj entries p).1 := ht
    exact jwalkObj_strings_emailFree entries p (fun k h => hk k h) t ht
theorem jwalkArr_strings_emailFree : ∀ (items : JArr) (p : Str) (i : Nat),
    (∀ k ∈ jKeysArr items, ('@' : Char) ∉ k) →
    ∀ t ∈ jStringsArr (jwalkArr items p i).1, searchNB emailMatchAt t = false
  | JArr.nil, _, _, _ => by intro t ht; simp [jwalkArr, jStringsArr] at ht
  | JArr.cons v tl, p, i, hk => by
    intro t ht
    replace ht : t ∈ jStrings (jwalk v (p ++ '[' :: (natChars i ++ [']']))).1 ++
        jStringsArr (jwalkArr tl p (i + 1)).1 := ht
    rcases List.mem_append.mp ht with h1 | h2
    · exact jwalk_strings_emailFree v _
        (fun k h => hk k (List.mem_append.mpr (Or.inl h))) t h1
    · exact jwalkArr_strings_emailFree tl p (i + 1)
        (fun k h => hk k (List.mem_append.mpr (Or.inr h))) t h2
theorem jwalkObj_strings_emailFree : ∀ (entries : JObj) (p : Str),
    (∀ k ∈ jKeysObj entries, ('@' : Char) ∉ k) →
    ∀ t ∈ jStringsObj (jwalkObj entries p).1, searchNB emailMatchAt t = false
  | JObj.nil, _, _ => by intro t ht; simp [jwalkObj, jStringsObj] at ht
  | JObj.cons k v tl, p, hk => by
    intro t ht
    replace ht : t ∈ k :: (jStrings (jwalk v (if p.isEmpty then k else p ++ '.' :: k)).1 ++
        jStringsObj (jwalkObj tl p).1) := ht
    rcases List.mem_cons.mp ht with rfl | ht2
    · exact searchNB_email_no_at (hk t (List.mem_cons_self t _))
    · rcases List.mem_append.mp ht2 with h1 | h2
      · exact jwalk_strings_emailFree v _
          (fun k2 h => hk k2 (List.mem_cons_of_mem _ (List.mem_append.mpr (Or.inl h))))
          t h1
      · exact jwalkObj_strings_emailFree tl p
          (fun k2 h => hk k2 (List.mem_cons_of_mem _ (List.mem_append.mpr (Or.inr h))))
          t h2
end

mutual
theorem jStrings_key_or_leaf : ∀ (v : JValue) (p s : Str), s ∈ jStrings v →
    s ∈ jKeys v ∨ ∃ q ∈ jleaves v p, q.2 = s
  | JValue.str s0, p, s, hs => by
    rcases List.mem_singleton.mp hs with rfl
    exact Or.inr ⟨(p, s), List.mem_singleton.mpr rfl, rfl⟩
  | JValue.num n, p, s, hs => by simp [jStrings] at hs
  | JValue.bool b, p, s, hs => by simp [jStrings] at hs
  | JValue.null, p, s, hs => by simp [jStrings] at hs
  | JValue.arr items, p, s, hs => jStringsArr_key_or_leaf items p 0 s hs
  | JValue.obj entries, p, s, hs => jStringsObj_key_or_leaf entries p s hs
theorem jStringsArr_key_or_leaf : ∀ (items : JArr) (p : Str) (i : Nat) (s : Str),
    s ∈ jStringsArr items →
    s ∈ jKeysArr items ∨ ∃ q ∈ jleavesArr items p i, q.2 = s
  | JArr.nil, _, _, s, hs => by simp [jStringsArr] at hs
  | JArr.cons v tl, p, i, s, hs => by
    rcases List.mem_append.mp hs with h1 | h2
    · rcases jStrings_key_or_leaf v (p ++ '[' :: (natChars i ++ [']'])) s h1 with
        hkey | ⟨q, hq, hqs⟩
      · exact Or.inl (List.mem_append.mpr (Or.inl hkey))
      · exact Or.inr ⟨q, List.mem_append.mpr (Or.inl hq), hqs⟩
    · rcases jStringsArr_key_or_leaf tl p (i + 1) s h2 with hkey | ⟨q, hq, hqs⟩
      · exact Or.inl (List.mem_append.mpr (Or.inr hkey))
      · exact Or.inr ⟨q, List.mem_append.mpr (Or.inr hq), hqs⟩
theorem jStringsObj_key_or_leaf : ∀ (entries : JObj) (p s : Str),
    s ∈ jStringsObj entries →
    s ∈ jKeysObj entries ∨ ∃ q ∈ jleavesObj entries p, q.2 = s
  | JObj.nil, _, s, hs => by simp [jStringsObj] at hs
  | JObj.cons k v tl, p, s, hs => by
    rcases List.mem_cons.mp hs with rfl | hs2
    · exact Or.inl (List.mem_cons_self s _)
    · rcases List.mem_append.mp hs2 with h1 | h2
      · rcases jStrings_key_or_leaf v (if p.isEmpty then k else p ++ '.' :: k) s h1 with
          hkey | ⟨q, hq, hqs⟩
        · exact Or.inl (List.mem_cons_of_mem _ (List.mem_append.mpr (Or.inl hkey)))
        · exact Or.inr ⟨q, List.mem_append.mpr (Or.inl hq), hqs⟩
      · rcases jStringsObj_key_or_leaf tl p s h2 with hkey | ⟨q, hq, hqs⟩
        · exact Or.inl (List.mem_cons_of_mem _ (List.mem_append.mpr (Or.inr hkey)))
        · exact Or.inr ⟨q, List.mem_append.mpr (Or.inr hq), hqs⟩
end

theorem jwalkObj_lookup_none : ∀ (entries : JObj) (p k : Str),
    jObjLookup entries k = none → jObjLookup (jwalkObj entries p).1 k = none
  | JObj.nil, _, _, _ => rfl
  | JObj.cons k0 v tl, p, k, h => by
    simp only [jObjLookup] at h
    by_cases hk : k0 = k
    · rw [if_pos hk] at h
      exact Option.noConfusion h
    · rw [if_neg hk] at h
      replace : jObjLookup (JObj.cons k0
          (jwalk v (if p.isEmpty then k0 else p ++ '.' :: k0)).1
          (jwalkObj tl p).1) k = none := by
        simp only [jObjLookup]
        rw [if_neg hk]
        exact jwalkObj_lookup_none tl p k h
      exact this

theorem jObjLookup_objAppend_self : ∀ (entries : JObj) (k : Str) (v : JValue),
    jObjLookup entries k = none → jObjLookup (objAppend entries k v) k = some v
  | JObj.nil, k, v, _ => by
    simp [objAppend, jObjLookup]
  | JObj.cons k0 v0 tl, k, v, h => by
    simp only [jObjLookup] at h
    by_cases hk : k0 = k
    · rw [if_pos hk] at h
      exact Option.noConfusion h
    · rw [if_neg hk] at h
      simp only [objAppend, jObjLookup]
      rw [if_neg hk]
      exact jObjLookup_objAppend_self tl k v h

theorem jObjLookup_objUpdateKey_self : ∀ (entries : JObj) (k : Str) (v : JValue),
    jObjLookup (objUpdateKey entries k v) k = some v
  | JObj.nil, k, v => by
    simp [objUpdateKey, jObjLookup]
  | JObj.cons k0 v0 tl, k, v => by
    simp only [objUpdateKey]
    by_cases hk : k0 = k
    · rw [if_pos hk]
      simp only [jObjLookup]
      rw [if_pos hk]
    · rw [if_neg hk]
      simp only [jObjLookup]
      rw [if_neg hk]
      exact jObjLookup_objUpdateKey_self tl k v

theorem jStringsObj_objAppend : ∀ (entries : JObj) (k : Str) (v : JValue) (s : Str),
    s ∈ jStringsObj (objAppend entries k v) →
    s ∈ jStringsObj entries ∨ s = k ∨ s ∈ jStrings v
  | JObj.nil, k, v, s, hs => by
    replace hs : s ∈ k :: (jStrings v ++ []) := hs
    rcases List.mem_cons.mp hs with rfl | hs2
    · exact Or.inr (Or.inl rfl)
    · rcases List.mem_append.mp hs2 with h1 | h2
      · exact Or.inr (Or.inr h1)
      · exact absurd h2 (List.not_mem_nil s)
  | JObj.cons k0 v0 tl, k, v, s, hs => by
    replace hs : s ∈ k0 :: (jStrings v0 ++ jStringsObj (objAppend tl k v)) := hs
    rcases List.mem_cons.mp hs with rfl | hs2
    · exact Or.inl (List.mem_cons_self s _)
    · rcases List.mem_append.mp hs2 with h1 | h2
      · exact Or.inl (List.mem_cons_of_mem _ (List.mem_append.mpr (Or.inl h1)))
      · rcases jStringsObj_objAppend tl k v s h2 with h3 | h3 | h3
        · exact Or.inl (List.mem_cons_of_mem _ (List.mem_append.mpr (Or.inr h3)))
        · exact Or.inr (Or.inl h3)
        · exact Or.inr (Or.inr h3)

theorem jStringsObj_objUpdateKey : ∀ (entries : JObj) (k : Str) (v : JValue) (s : Str),
    s ∈ jStringsObj (objUpdateKey entries k v) →
    s ∈ jStringsObj entries ∨ s = k ∨ s ∈ jStrings v
  | JObj.nil, k, v, s, hs => by
    replace hs : s ∈ k :: (jStrings v ++ []) := hs
    rcases List.mem_cons.mp hs with rfl | hs2
    · exact Or.inr (Or.inl rfl)
    · rcases List.mem_append.mp hs2 with h1 | h2
      · exact Or.inr (Or.inr h1)
      · exact absurd h2 (List.not_mem_nil s)
  | JObj.cons k0 v0 tl, k, v, s, hs => by
    simp only [objUpdateKey] at hs
    by_cases hk : k0 = k
    · rw [if_pos hk] at hs
      replace hs : s ∈ k0 :: (jStrings v ++ jStringsObj tl) := hs
      rcases List.mem_cons.mp hs with rfl | hs2
      · exact Or.inl (List.mem_cons_self s _)
      · rcases List.mem_append.mp hs2 with h1 | h2
        · exact Or.inr (Or.inr h1)
        · exact Or.inl (List.mem_cons_of_mem _ (List.mem_append.mpr (Or.inr h2)))
    · rw [if_neg hk] at hs
      replace hs : s ∈ k0 :: (jStrings v0 ++ jStringsObj (objUpdateKey tl k v)) := hs
      rcases List.mem_cons.mp hs with rfl | hs2
      · exact Or.inl (List.mem_cons_self s _)
      · rcases List.mem_append.mp hs2 with h1 | h2
        · exact Or.inl (List.mem_cons_of_mem _ (List.mem_append.mpr (Or.inl h1)))
        · rcases jStringsObj_objUpdateKey tl k v s h2 with h3 | h3 | h3
          · exact Or.inl (List.mem_cons_of_mem _ (List.mem_append.mpr (Or.inr h3)))
          · exact Or.inr (Or.inl h3)
          · exact Or.inr (Or.inr h3)

theorem jStringsArr_of_map_str : ∀ (l : List Str) (s : Str),
    s ∈ jStringsArr (jArrOfList (l.map JValue.str)) → s ∈ l
  | [], s, hs => by simp [jArrOfList, jStringsArr] at hs
  | t :: rest, s, hs => by
    replace hs : s ∈ [t] ++ jStringsArr (jArrOfList (rest.map JValue.str)) := hs
    rcases List.mem_append.mp hs with h1 | h2
    · exact List.mem_singleton.mp h1 ▸ List.mem_cons_self t rest
    · exact List.mem_cons_of_mem t (jStringsArr_of_map_str rest s h2)

/-- The `allow_pii_output = false` arm of the persist step, with the walk
already split out. -/
theorem persist_false_eq (payload : JObj) :
    persist_table_payload false payload =
      (if (jwalkObj payload []).2.isEmpty then
        some (JValue.obj (jwalkObj payload []).1, (jwalkObj payload []).2)
      else
        match jObjLookup (objSetDefault (jwalkObj payload []).1 (strOf "redaction")
            (JValue.obj JObj.nil)) (strOf "redaction") with
        | some inner =>
            (redactionBlockInner inner (jwalkObj payload []).2).map (fun inner2 =>
              (JValue.obj (objUpdateKey (objSetDefault (jwalkObj payload []).1
                  (strOf "redaction") (JValue.obj JObj.nil))
                (strOf "redaction") inner2), (jwalkObj payload []).2))
        | none => none) := rfl

/-- The persist step under `allow_pii_output = false`, for a payload with
'@'-free keys, no pre-existing `redaction` key, and at least one redaction
event: the redaction block is attached and the persisted value holds no
string matching the email pattern. -/
theorem persist_false_spec (payload : JObj)
    (hk : ∀ k ∈ jKeysObj payload, ('@' : Char) ∉ k)
    (hredaction : jObjLookup payload (strOf "redaction") = none)
    (hne : (jwalkObj payload []).2 ≠ []) :
    ∃ out, persist_table_payload false payload =
        some (JValue.obj out, (jwalkObj payload []).2) ∧
      jObjLookup out (strOf "redaction") =
        some (JValue.obj (jObjOfList
          [ (strOf "applied", JValue.bool true),
            (strOf "reason", JValue.str (strOf "allow_pii_output=false")),
            (strOf "paths", JValue.arr (jArrOfList
              (((jwalkObj payload []).2.take 200).map JValue.str))) ])) ∧
      jHasEmail (JValue.obj out) = false := by
  have hlook : jObjLookup (jwalkObj payload []).1 (strOf "redaction") = none :=
    jwalkObj_lookup_none payload [] _ hredaction
  have hsd : objSetDefault (jwalkObj payload []).1 (strOf "redaction")
      (JValue.obj JObj.nil) =
      objAppend (jwalkObj payload []).1 (strOf "redaction") (JValue.obj JObj.nil) := by
    simp only [objSetDefault, hlook]
    rfl
  have hlook1 : jObjLookup (objSetDefault (jwalkObj payload []).1 (strOf "redaction")
      (JValue.obj JObj.nil)) (strOf "redaction") = some (JValue.obj JObj.nil) := by
    rw [hsd]
    exact jObjLookup_objAppend_self _ _ _ hlook
  have hinner : redactionBlockInner (JValue.obj JObj.nil) (jwalkObj payload []).2 =
      some (JValue.obj (jObjOfList
        [ (strOf "applied", JValue.bool true),
          (strOf "reason", JValue.str (strOf "allow_pii_output=false")),
          (strOf "paths", JValue.arr (jArrOfList
            (((jwalkObj payload []).2.take 200).map JValue.str))) ])) := rfl
  refine ⟨objUpdateKey (objSetDefault (jwalkObj payload []).1 (strOf "redaction")
      (JValue.obj JObj.nil)) (strOf "redaction")
      (JValue.obj (jObjOfList
        [ (strOf "applied", JValue.bool true),
          (strOf "reason", JValue.str (strOf "allow_pii_output=false")),
          (strOf "paths", JValue.arr (jArrOfList
            (((jwalkObj payload []).2.take 200).map JValue.str))) ])), ?_, ?_, ?_⟩
  · rw [persist_false_eq, if_neg (fun habs => hne (list_isEmpty_eq_nil _ habs))]
    simp only [hlook1, hinner, Option.map]
  · exact jObjLookup_objUpdateKey_self _ _ _
  · have hall : ∀ s ∈ jStrings (JValue.obj (objUpdateKey
        (objSetDefault (jwalkObj payload []).1 (strOf "redaction") (JValue.obj JObj.nil))
        (strOf "redaction")
        (JValue.obj (jObjOfList
          [ (strOf "applied", JValue.bool true),
            (strOf "reason", JValue.str (strOf "allow_pii_output=false")),
            (strOf "paths", JValue.arr (jArrOfList
              (((jwalkObj payload []).2.take 200).map JValue.str))) ])))),
        searchNB emailMatchAt s = false := by
      intro s hs
      rcases jStringsObj_objUpdateKey _ _ _ s hs with h1 | h1 | h1
      · rw [hsd] at h1
        rcases jStringsObj_objAppend _ _ _ s h1 with h2 | h2 | h2
        · exact jwalkObj_strings_emailFree payload [] hk s h2
        · subst h2
          decide
        · replace h2 : s ∈ ([] : List Str) := h2
          exact absurd h2 (List.not_mem_nil s)
      · subst h1
        decide
      · replace h1 : s ∈ strOf "applied" :: (([] : List Str) ++
          (strOf "reason" :: ([strOf "allow_pii_output=false"] ++
            (strOf "paths" :: (jStringsArr (jArrOfList
              (((jwalkObj payload []).2.take 200).map JValue.str)) ++ []))))) := h1
        rw [List.nil_append, List.append_nil] at h1
        rcases List.mem_cons.mp h1 with rfl | h2
        · decide
        · rcases List.mem_cons.mp h2 with rfl | h3
          · decide
          · rcases List.mem_append.mp h3 with h4 | h5
            · rcases List.mem_singleton.mp h4 with rfl
              decide
            · rcases List.mem_cons.mp h5 with rfl | h6
              · decide
              · have hmem : s ∈ (jwalkObj payload []).2.take 200 :=
                  jStringsArr_of_map_str _ s h6
                have hmem2 : s ∈ (jwalkObj payload []).2 :=
                  List.take_subset 200 _ hmem
                exact searchNB_email_no_at (jwalk_root_paths_no_at
                  (JValue.obj payload) hk s hmem2)
    exact (List.any_eq_false).mpr (fun s hs => by rw [hall s hs]; decide)

def c3xReport : Report :=
  ⟨none, none, none,
    [⟨strOf "owner_rule", strOf "ok", strOf "fine",
      JObj.cons (strOf "owner a@b.cc") (JValue.num 1) JObj.nil⟩]⟩

def c3xPayload : JObj :=
  serialize_report c3xReport (strOf "t") [strOf "m"] JObj.nil JValue.null
    (strOf "ts")

def c3wReport : Report :=
  ⟨some 3, some 2, some [strOf "c1"],
    [⟨strOf "not_null", strOf "ok", strOf "reach a@b.cc", JObj.nil⟩]⟩

def c3wPayload : JObj :=
  serialize_report c3wReport (strOf "cat.sch.tbl") [strOf "core_quality"]
    JObj.nil JValue.null (strOf "ts")

/-- C3 fails as stated: redaction rewrites only string *values*, never
mapping keys, so an email inside a metrics key survives into the persisted
file even with `allow_pii_output = false`; moreover such a payload produces
no redaction events at all, hence no `redaction` block. -/
theorem claim_C3_counterexample :
    jHasEmail (JValue.obj c3xPayload) = true ∧
    (persist_table_payload false c3xPayload).map (fun r => jHasEmail r.1) =
      some true ∧
    (persist_table_payload false c3xPayload).map (fun r => r.2.isEmpty) =
      some true := by decide

/-- C3 (amended): for a serialized payload whose mapping keys are '@'-free
and which contains an email-pattern string, `allow_pii_output = false`
persists a file with no email-matching string anywhere and a `redaction`
block whose `paths` list is non-empty; `allow_pii_output = true` persists
the identical payload, which carries no `redaction` key at all. -/
theorem claim_C3 (report : Report) (tn : Str) (mods : List Str) (cfg : JObj)
    (audit : JValue) (gen : Str)
    (hkeys : ∀ k ∈ jKeys
      (JValue.obj (serialize_report report tn mods cfg audit gen)),
      ('@' : Char) ∉ k)
    (hemail : jHasEmail
      (JValue.obj (serialize_report report tn mods cfg audit gen)) = true) :
    (∃ out, persist_table_payload false (serialize_report report tn mods cfg audit gen) =
        some (JValue.obj out,
          (jwalkObj (serialize_report report tn mods cfg audit gen) []).2) ∧
      (jwalkObj (serialize_report report tn mods cfg audit gen) []).2 ≠ [] ∧
      jHasEmail (JValue.obj out) = false ∧
      jObjLookup out (strOf "redaction") =
        some (JValue.obj (jObjOfList
          [ (strOf "applied", JValue.bool true),
            (strOf "reason", JValue.str (strOf "allow_pii_output=false")),
            (strOf "paths", JValue.arr (jArrOfList
              (((jwalkObj (serialize_report report tn mods cfg audit gen) []).2.take
                200).map JValue.str))) ]))) ∧
    persist_table_payload true (serialize_report report tn mods cfg audit gen) =
      some (JValue.obj (serialize_report report tn mods cfg audit gen), []) ∧
    jObjLookup (serialize_report report tn mods cfg audit gen) (strOf "redaction") =
      none := by
  have hser : jObjLookup (serialize_report report tn mods cfg audit gen)
      (strOf "redaction") = none := rfl
  have hne : (jwalkObj (serialize_report report tn mods cfg audit gen) []).2 ≠ [] := by
    obtain ⟨s, hsmem, hsearch⟩ := List.any_eq_true.mp hemail
    rcases jStrings_key_or_leaf
        (JValue.obj (serialize_report report tn mods cfg audit gen)) [] s hsmem with
      hkey | ⟨q, hq, hqs⟩
    · exact absurd (searchNB_email_at hsearch) (hkeys s hkey)
    · have hpii : contains_obvious_pii q.2 = true := by
        rw [hqs]
        exact pii_true_of_email hsearch
      have hpath : q.1 ∈ (jwalk
          (JValue.obj (serialize_report report tn mods cfg audit gen)) []).2 := by
        rw [jwalk_paths]
        exact List.mem_map.mpr ⟨q, List.mem_filter.mpr ⟨hq, by rw [hpii]⟩, rfl⟩
      exact List.ne_nil_of_mem hpath
  obtain ⟨out, hpersist, hblock, hfree⟩ := persist_false_spec
    (serialize_report report tn mods cfg audit gen) (fun k h => hkeys k h) hser hne
  exact ⟨⟨out, hpersist, hne, hfree, hblock⟩, rfl, hser⟩

theorem claim_C3_witness :
    (∃ out, persist_table_payload false c3wPayload =
        some (JValue.obj out, (jwalkObj c3wPayload []).2) ∧
      (jwalkObj c3wPayload []).2 ≠ [] ∧
      jHasEmail (JValue.obj out) = false ∧
      jObjLookup out (strOf "redaction") =
        some (JValue.obj (jObjOfList
          [ (strOf "applied", JValue.bool true),
            (strOf "reason", JValue.str (strOf "allow_pii_output=false")),
            (strOf "paths", JValue.arr (jArrOfList
              (((jwalkObj c3wPayload []).2.take 200).map JValue.str))) ]))) ∧
    persist_table_payload true c3wPayload = some (JValue.obj c3wPayload, []) ∧
    jObjLookup c3wPayload (strOf "redaction") = none :=
  claim_C3 c3wReport (strOf "cat.sch.tbl") [strOf "core_quality"] JObj.nil
    JValue.null (strOf "ts") (by decide) (by decide)

end DCheckRunner
